import Mathlib

/-! UWB particle filter: a shallow embedding of `main.go` and `particle-filter/pf.go`.

Go `float64` values are idealised as elements of a linear ordered field `F`
(the rationals for evaluation, the reals for the analytic facts about the
Gaussian likelihood).  Rounding, overflow, underflow and NaN are therefore not
modelled.  Go `int` values are modelled as `Int`.  Panics of the Go runtime
(index out of range, integer division by zero, `rand.Intn` with a non-positive
bound) are modelled as faults of the `Except` monad, and the unbounded inner
loop of the resampling wheel is given explicit fuel.
-/

namespace UwbPf

/-! ## Readings and the aggregation goroutine of `main.go` -/

/-- A reading `readings.Reading`: the anchor identifier and the measured distance. -/
structure Reading (F : Type) where
  Anchor : String
  Dist : F
  deriving DecidableEq, Repr

/-- The two local buffers `anch1`, `anch2` of the aggregation goroutine. -/
structure Aggregator (F : Type) where
  anch1 : List (Reading F)
  anch2 : List (Reading F)
  deriving DecidableEq, Repr

/-- The buffers as they are when the goroutine starts, and as they are reset to. -/
def Aggregator.empty {F : Type} : Aggregator F := ⟨[], []⟩

/-- The `switch reading.Anchor` statement (main.go lines 31-36). -/
def buffer {F : Type} (s : Aggregator F) (reading : Reading F) : Aggregator F :=
  if reading.Anchor = "A9CF" then { s with anch1 := s.anch1 ++ [reading] }
  else if reading.Anchor = "F95B" then { s with anch2 := s.anch2 ++ [reading] }
  else s

/-- The loop `for i := range anch { avg += anch[i].Dist }` starting from `0.0`. -/
def sumDist {F : Type} [Add F] [Zero F] (anch : List (Reading F)) : F :=
  anch.foldl (fun avg r => avg + r.Dist) 0

/-- One pass of the body of the aggregation loop (main.go lines 29-67) on the
received `reading`: the new buffers, and the slice sent on `evalChan` if any. -/
def ingest {F : Type} [LinearOrderedField F] (s : Aggregator F) (reading : Reading F) :
    Aggregator F × Option (List (Reading F)) :=
  let s1 := buffer s reading
  if h : 5 ≤ s1.anch1.length ∧ 5 ≤ s1.anch2.length then
    let avgAnch1 := sumDist s1.anch1 / (s1.anch1.length : F)
    let avgAnch1Reading : Reading F :=
      { Anchor := (s1.anch1.get ⟨0, by omega⟩).Anchor, Dist := avgAnch1 }
    let avgAnch2 := sumDist s1.anch2 / (s1.anch2.length : F)
    let avgAnch2Reading : Reading F :=
      { Anchor := (s1.anch2.get ⟨0, by omega⟩).Anchor, Dist := avgAnch2 }
    (⟨[], []⟩, some [avgAnch1Reading, avgAnch2Reading])
  else
    (s1, none)

/-- The aggregation loop run over the readings received, in order: the final
buffers and the observations sent on `evalChan`, in order. -/
def ingestAll {F : Type} [LinearOrderedField F] :
    Aggregator F → List (Reading F) → Aggregator F × List (List (Reading F))
  | s, [] => (s, [])
  | s, r :: rs =>
    let step := ingest s r
    let rest := ingestAll step.1 rs
    (rest.1, step.2.toList ++ rest.2)

/-- The arithmetic mean of a list of values (the specification's notion). -/
def mean {F : Type} [LinearOrderedField F] (l : List F) : F :=
  l.sum / (l.length : F)

/-- The distances of the readings of `rs` that name the anchor `a`, in order. -/
def distsOf {F : Type} (a : String) (rs : List (Reading F)) : List F :=
  (rs.filter (fun r => r.Anchor = a)).map (fun r => r.Dist)

/-! ## The particle filter of `particle-filter/pf.go` -/

/-- Run-time panics of the Go code, and exhaustion of the fuel given to the
inner loop of the resampling wheel. -/
inductive Fault where
  | indexOutOfRange
  | divideByZero
  | invalidArgument
  | outOfFuel
  deriving DecidableEq, Repr

/-- The functions and constants of Go's `math` package that the filter uses. -/
structure MathOps (F : Type) where
  Sqrt : F → F
  Pow : F → F → F
  E : F
  Pi : F

/-- The random sources: the successive results of `rand.Float64()`, the
successive raw integers behind `rand.Intn`, and the successive results of
`norm.Rand()` for `distuv.Normal{Mu: 0, Sigma: .1}`. -/
structure Rng (F : Type) where
  float64 : Nat → F
  intn : Nat → Nat
  norm : Nat → F

/-- Every `rand.Float64()` result lies in `[0.0, 1.0)`. -/
def Rng.Valid {F : Type} [LinearOrderedField F] (g : Rng F) : Prop :=
  ∀ n, 0 ≤ g.float64 n ∧ g.float64 n < 1

/-- One call of `rand.Float64()`. -/
def Rng.Float64 {F : Type} (g : Rng F) : F × Rng F :=
  (g.float64 0, { g with float64 := fun n => g.float64 (n + 1) })

/-- One call of `rand.Intn(n)`: it panics for `n <= 0`, and otherwise returns
an integer in `[0, n)`. -/
def Rng.Intn {F : Type} (g : Rng F) (n : Int) : Except Fault (Int × Rng F) :=
  if n ≤ 0 then .error .invalidArgument
  else .ok (((g.intn 0 : Nat) : Int) % n, { g with intn := fun k => g.intn (k + 1) })

/-- One call of `norm.Rand()`. -/
def Rng.NormRand {F : Type} (g : Rng F) : F × Rng F :=
  (g.norm 0, { g with norm := fun n => g.norm (n + 1) })

/-- A particle: a hypothesised position and its weight. -/
structure Particle (F : Type) where
  X : F
  Y : F
  Weight : F
  deriving DecidableEq, Repr

/-- The method `UpdateWeight`. -/
def Particle.UpdateWeight {F : Type} (p : Particle F) (weight : F) : Particle F :=
  { p with Weight := weight }

/-- The state of the filter.  `ListParticles` holds the particles the slice of
pointers refers to (the pointers are distinct and non-nil in every state the
package builds); `Anchors` is the map from anchor name to coordinate slice. -/
structure ParticleFilter (F : Type) where
  NumSamples : Int
  PercentResample : F
  ListParticles : List (Particle F)
  Sigma : F
  XLimit : F
  YLimit : F
  Anchors : List (String × List F)
  EstimatedX : F
  EstimatedY : F
  MaxWeight : F
  iteration : Int
  printIter : Bool

/-- Slice indexing `l[i]`, which panics outside `0 <= i < len(l)`. -/
def index {α : Type} (l : List α) (i : Int) : Except Fault α :=
  if i < 0 then .error .indexOutOfRange
  else match l.get? i.toNat with
    | some a => .ok a
    | none => .error .indexOutOfRange

/-- Map lookup `m[key]`, which gives the nil slice for an absent key. -/
def mapGet {F : Type} (m : List (String × List F)) (key : String) : List F :=
  (m.lookup key).getD []

/-- The conversion `int(x)` of a float, which truncates toward zero. -/
def toInt {F : Type} [LinearOrderedField F] [FloorRing F] (x : F) : Int :=
  if 0 ≤ x then ⌊x⌋ else ⌈x⌉

/-- The method `checkAndSetMaxWeight`. -/
def checkAndSetMaxWeight {F : Type} [LinearOrderedField F] (pf : ParticleFilter F)
    (weight : F) (override : Bool) : ParticleFilter F :=
  let pf1 := if weight > pf.MaxWeight then { pf with MaxWeight := weight } else pf
  if override then { pf1 with MaxWeight := weight } else pf1

/-- The method `createParticle`. -/
def createParticle {F : Type} [LinearOrderedField F] (pf : ParticleFilter F) (g : Rng F) :
    Particle F × Rng F :=
  let d1 := g.Float64
  let x := d1.1 * pf.XLimit
  let d2 := d1.2.Float64
  let y := d2.1 * pf.YLimit
  ({ X := x, Y := y, Weight := 0 }, d2.2)

/-- A loop `for i := 0; i < n; i++ { p := pf.createParticle(); l = append(l, &p) }`
with `n` iterations left. -/
def appendFresh {F : Type} [LinearOrderedField F] (pf : ParticleFilter F) :
    Nat → List (Particle F) → Rng F → List (Particle F) × Rng F
  | 0, l, g => (l, g)
  | n + 1, l, g =>
    let d := createParticle pf g
    appendFresh pf n (l ++ [d.1]) d.2

/-- The method `createSampleList`. -/
def createSampleList {F : Type} [LinearOrderedField F] (pf : ParticleFilter F) (g : Rng F) :
    ParticleFilter F × Rng F :=
  let r := appendFresh pf pf.NumSamples.toNat pf.ListParticles g
  ({ pf with ListParticles := r.1 }, r.2)

/-- The constructor `CreatePF`. -/
def CreatePF {F : Type} [LinearOrderedField F] (numSamps : Int)
    (percResamp sigma xLimit yLimit : F) (g : Rng F) : ParticleFilter F × Rng F :=
  let anchors : List (String × List F) := [("A9CF", [0, 3.04]), ("F95B", [0, 0])]
  let pf : ParticleFilter F :=
    { NumSamples := numSamps
      PercentResample := percResamp
      ListParticles := []
      Sigma := sigma
      XLimit := xLimit
      YLimit := yLimit
      Anchors := anchors
      EstimatedX := 0
      EstimatedY := 0
      MaxWeight := 0.0
      iteration := 0
      printIter := true }
  createSampleList pf g

/-- The method `calculateNormDist`. -/
def calculateNormDist {F : Type} [LinearOrderedField F] (M : MathOps F)
    (pf : ParticleFilter F) (x mu : F) : F :=
  let xMuExponent := M.Pow ((x - mu) / pf.Sigma) 2.0
  let eulerExponent := M.Pow M.E (-0.5 * xMuExponent)
  (1 / (pf.Sigma * M.Sqrt (2 * M.Pi))) * eulerExponent

/-- The body of the loop over the readings in `CalculateWeights` (lines 114-119):
the weight of particle `p` for the reading `r`. -/
def readingWeight {F : Type} [LinearOrderedField F] (M : MathOps F)
    (pf : ParticleFilter F) (p : Particle F) (r : Reading F) : Except Fault F := do
  let xAndy := mapGet pf.Anchors r.Anchor
  let a0 ← index xAndy 0
  let a1 ← index xAndy 1
  let dist := M.Sqrt (M.Pow (p.X - a0) 2 + M.Pow (p.Y - a1) 2)
  pure (calculateNormDist M pf r.Dist dist)

/-- The loop over the readings in `CalculateWeights`, appending to `weights`. -/
def readingWeights {F : Type} [LinearOrderedField F] (M : MathOps F)
    (pf : ParticleFilter F) (p : Particle F) :
    List (Reading F) → List F → Except Fault (List F)
  | [], weights => pure weights
  | r :: rs, weights => do
    let weight ← readingWeight M pf p r
    readingWeights M pf p rs (weights ++ [weight])

/-- The loop over the particles in `CalculateWeights` (lines 105-129) on the
particles not yet visited: the filter and the particles as updated. -/
def weighParticles {F : Type} [LinearOrderedField F] (M : MathOps F)
    (readings : List (Reading F)) :
    ParticleFilter F → List (Particle F) → Except Fault (ParticleFilter F × List (Particle F))
  | pf, [] => pure (pf, [])
  | pf, p :: ps => do
    let weights ← readingWeights M pf p readings []
    let newWeight := weights.foldl (fun acc w => acc * w) 1.0
    let pf1 := checkAndSetMaxWeight pf newWeight false
    let p1 := p.UpdateWeight newWeight
    let rest ← weighParticles M readings pf1 ps
    pure (rest.1, p1 :: rest.2)

/-- The method `CalculateWeights`. -/
def CalculateWeights {F : Type} [LinearOrderedField F] (M : MathOps F)
    (pf : ParticleFilter F) (readings : List (Reading F)) : Except Fault (ParticleFilter F) := do
  let pf0 := checkAndSetMaxWeight pf 0.0 true
  let r ← weighParticles M readings pf0 pf0.ListParticles
  pure { r.1 with ListParticles := r.2 }

/-- The local variables of `ResampleAndFuzz` that the resampling wheel
updates: the random sources, `newParticleList`, `xLoc` and `yLoc`. -/
structure WheelAcc (F : Type) where
  g : Rng F
  newParticleList : List (Particle F)
  xLoc : F
  yLoc : F

/-- The body of `if p.Weight > beta { ... }` (lines 155-177): a displaced copy
of `p` is appended and its coordinates are added to the running sums. -/
def accept {F : Type} [LinearOrderedField F] (p : Particle F) (acc : WheelAcc F) : WheelAcc F :=
  let d1 := acc.g.NormRand
  let newX := p.X + d1.1
  let d2 := d1.2.NormRand
  let newY := p.Y + d2.1
  let newP : Particle F := { X := newX, Y := newY, Weight := 0 }
  { g := d2.2
    newParticleList := acc.newParticleList ++ [newP]
    xLoc := acc.xLoc + newX
    yLoc := acc.yLoc + newY }

/-- The inner loop `for beta > 0 { ... }` (lines 151-182), with fuel for the
number of iterations. -/
def wheelWalk {F : Type} [LinearOrderedField F] (pf : ParticleFilter F) :
    Nat → F → Int → WheelAcc F → Except Fault (WheelAcc F)
  | 0, beta, _, acc => if beta > 0 then .error .outOfFuel else .ok acc
  | fuel + 1, beta, startIdx, acc =>
    if beta > 0 then do
      let p ← index pf.ListParticles startIdx
      let acc1 := if p.Weight > beta then accept p acc else acc
      let beta1 := beta - p.Weight
      if pf.NumSamples = 0 then .error .divideByZero
      else wheelWalk pf fuel beta1 ((startIdx + 1).tmod pf.NumSamples) acc1
    else .ok acc

/-- One repetition of the outer loop of the wheel (lines 149-182). -/
def wheelRep {F : Type} [LinearOrderedField F] (pf : ParticleFilter F) (fuel : Nat)
    (numIntResample : Int) (acc : WheelAcc F) : Except Fault (WheelAcc F) := do
  let d := acc.g.Float64
  let beta := d.1 * pf.MaxWeight * 2
  let k ← d.2.Intn numIntResample
  wheelWalk pf fuel beta k.1 { acc with g := k.2 }

/-- The outer loop `for i := 0; i < numIntResample; i++` with `n` repetitions left. -/
def wheel {F : Type} [LinearOrderedField F] (pf : ParticleFilter F) (fuel : Nat)
    (numIntResample : Int) : Nat → WheelAcc F → Except Fault (WheelAcc F)
  | 0, acc => .ok acc
  | n + 1, acc => do
    let acc1 ← wheelRep pf fuel numIntResample acc
    wheel pf fuel numIntResample n acc1

/-- The resample count `numIntResample` of `ResampleAndFuzz` (lines 137-138). -/
def numIntResample {F : Type} [LinearOrderedField F] [FloorRing F]
    (pf : ParticleFilter F) : Int :=
  toInt ((pf.NumSamples : F) * pf.PercentResample)

/-- The method `ResampleAndFuzz`, up to the replacement of the population
(lines 136-198); each walk of the wheel has `fuel` iterations.  The plotting
goroutine that follows reads the state and writes a file only. -/
def ResampleAndFuzz {F : Type} [LinearOrderedField F] [FloorRing F] (fuel : Nat)
    (pf : ParticleFilter F) (g : Rng F) : Except Fault (ParticleFilter F × Rng F) := do
  let pf1 := { pf with iteration := pf.iteration + 1 }
  let numIntResample := numIntResample pf1
  let numSpoof := pf1.NumSamples - numIntResample
  let acc0 : WheelAcc F := { g := g, newParticleList := [], xLoc := 0.0, yLoc := 0.0 }
  let acc ← wheel pf1 fuel numIntResample numIntResample.toNat acc0
  let xLoc := acc.xLoc / (numIntResample : F)
  let yLoc := acc.yLoc / (numIntResample : F)
  let pf2 := { pf1 with EstimatedX := xLoc, EstimatedY := yLoc }
  let r := appendFresh pf2 numSpoof.toNat acc.newParticleList acc.g
  pure ({ pf2 with ListParticles := r.1 }, r.2)

/-- One cycle of the evaluation goroutine (main.go lines 74-78):
`CalculateWeights` followed by `ResampleAndFuzz`. -/
def step {F : Type} [LinearOrderedField F] [FloorRing F] (M : MathOps F) (fuel : Nat)
    (pf : ParticleFilter F) (readings : List (Reading F)) (g : Rng F) :
    Except Fault (ParticleFilter F × Rng F) := do
  let pf1 ← CalculateWeights M pf readings
  ResampleAndFuzz fuel pf1 g

/-- The interpretation of Go's `math.Sqrt`, `math.Pow`, `math.E` and `math.Pi`
over the real numbers. -/
noncomputable def realMath : MathOps ℝ :=
  { Sqrt := Real.sqrt
    Pow := fun x y => x ^ y
    E := Real.exp 1
    Pi := Real.pi }

/-- A filter state over the rationals with the given particles. -/
def samplePF (n : Int) (perc : ℚ) (ps : List (Particle ℚ)) (mw : ℚ) : ParticleFilter ℚ :=
  { NumSamples := n, PercentResample := perc, ListParticles := ps, Sigma := 1/2,
    XLimit := 5, YLimit := 5, Anchors := [("A9CF", [0, 3.04]), ("F95B", [0, 0])],
    EstimatedX := 0, EstimatedY := 0, MaxWeight := mw, iteration := 0, printIter := true }

/-- Constant random sources. -/
def constRng (u : ℚ) (k : Nat) (z : ℚ) : Rng ℚ :=
  { float64 := fun _ => u, intn := fun _ => k, norm := fun _ => z }

/-! ## Specification-side notions, measures for the proofs, and sample states -/

/-- The registered position of an anchor: the first two coordinates of the
slice the registry holds for it, when it holds at least two. -/
def anchorPos {F : Type} (anchors : List (String × List F)) (a : String) : Option (F × F) :=
  match mapGet anchors a with
  | a0 :: a1 :: _ => some (a0, a1)
  | _ => none

/-- The weight the code computes for particle `p` and reading `r` when the
anchor of `r` is at `q`. -/
def weightAt {F : Type} [LinearOrderedField F] (M : MathOps F) (pf : ParticleFilter F)
    (p : Particle F) (q : F × F) (r : Reading F) : F :=
  calculateNormDist M pf r.Dist (M.Sqrt (M.Pow (p.X - q.1) 2 + M.Pow (p.Y - q.2) 2))

/-- The weight the code assigns to particle `p` for the readings `rs` when the
anchors are at the positions `pos`. -/
def particleWeight {F : Type} [LinearOrderedField F] (M : MathOps F) (pf : ParticleFilter F)
    (pos : String → F × F) (rs : List (Reading F)) (p : Particle F) : F :=
  (rs.map (fun r => weightAt M pf p (pos r.Anchor) r)).foldl (fun acc w => acc * w) 1.0

/-- The Gaussian density with mean `d` and standard deviation `sigma` at `x`
(the specification's likelihood). -/
noncomputable def gaussianLikelihood (sigma d x : ℝ) : ℝ :=
  (1 / (sigma * Real.sqrt (2 * Real.pi))) * Real.exp (-0.5 * ((x - d) / sigma) ^ 2)

/-- The Euclidean distance between two points of the plane. -/
noncomputable def euclideanDistance (p q : ℝ × ℝ) : ℝ :=
  Real.sqrt ((p.1 - q.1) ^ 2 + (p.2 - q.2) ^ 2)

/-- A filter state over the reals: two particles, the anchors of `CreatePF`,
and a large stale `MaxWeight`. -/
noncomputable def realPF : ParticleFilter ℝ :=
  { NumSamples := 2, PercentResample := 1, ListParticles := [⟨1, 1, 0⟩, ⟨2, 3, 0⟩],
    Sigma := 1 / 2, XLimit := 5, YLimit := 5,
    Anchors := [("A9CF", [0, 3.04]), ("F95B", [0, 0])],
    EstimatedX := 0, EstimatedY := 0, MaxWeight := 1000, iteration := 0, printIter := true }

/-- An observation as the aggregator emits it: one reading per anchor. -/
noncomputable def realObs : List (Reading ℝ) := [⟨"A9CF", 2⟩, ⟨"F95B", 3 / 2⟩]

/-- The positions `CreatePF` registers. -/
noncomputable def realPos : String → ℝ × ℝ :=
  fun a => if a = "A9CF" then (0, 3.04) else (0, 0)

/-- The running sums are the sums of the coordinates of the particles appended. -/
def WheelAcc.Sums {F : Type} [LinearOrderedField F] (acc : WheelAcc F) : Prop :=
  acc.xLoc = (acc.newParticleList.map (fun p => p.X)).sum ∧
  acc.yLoc = (acc.newParticleList.map (fun p => p.Y)).sum

/-- The weight of the particle at position `i`, and `0` past the end. -/
def weightOfIdx {F : Type} [LinearOrderedField F] (l : List (Particle F)) (i : Nat) : F :=
  ((l.get? i).map (fun p => p.Weight)).getD 0

/-- The successor of position `i` on the circle of `n` positions. -/
def nextIdx (n i : Nat) : Nat := if i + 1 = n then 0 else i + 1

/-- The sum of the weights met by `f` steps of the circular walk from `i`. -/
def walkSum {F : Type} [LinearOrderedField F] (l : List (Particle F)) (n : Nat) : Nat → Nat → F
  | 0, _ => 0
  | f + 1, i => weightOfIdx l i + walkSum l n f (nextIdx n i)

/-- The sum of the weights at the `k` positions from `i` on, without wrapping. -/
def segSum {F : Type} [LinearOrderedField F] (l : List (Particle F)) (i k : Nat) : F :=
  ((List.range k).map (fun t => weightOfIdx l (i + t))).sum

/-- The state `ResampleAndFuzz` expects: a population of `NumSamples > 0`
particles with non-negative weights, a resample fraction in `(0, 1]`, and a
`MaxWeight` that is `0` or at most the weight of some particle. -/
structure Scored {F : Type} [LinearOrderedField F] (pf : ParticleFilter F) : Prop where
  pos : 0 < pf.NumSamples
  len : (pf.ListParticles.length : Int) = pf.NumSamples
  nonneg : ∀ p ∈ pf.ListParticles, 0 ≤ p.Weight
  frac : 0 < pf.PercentResample ∧ pf.PercentResample ≤ 1
  maxW : pf.MaxWeight = 0 ∨ ∃ p ∈ pf.ListParticles, pf.MaxWeight ≤ p.Weight

/-- Random sources whose `rand.Float64()` always returns `0`. -/
noncomputable def zeroRng : Rng ℝ :=
  { float64 := fun _ => 0, intn := fun _ => 0, norm := fun _ => 0 }

/-- Random sources whose `rand.Float64()` always returns `0.5`. -/
noncomputable def halfRng : Rng ℝ :=
  { float64 := fun _ => 1 / 2, intn := fun _ => 0, norm := fun _ => 0 }

/-- A filter state over the reals with a single particle. -/
noncomputable def onePF : ParticleFilter ℝ :=
  { NumSamples := 1, PercentResample := 1, ListParticles := [⟨1, 1, 0⟩],
    Sigma := 1 / 2, XLimit := 5, YLimit := 5,
    Anchors := [("A9CF", [0, 3.04]), ("F95B", [0, 0])],
    EstimatedX := 0, EstimatedY := 0, MaxWeight := 0, iteration := 0, printIter := true }

/-- A state over the rationals in which every particle has weight `0`. -/
def zeroWeightPF : ParticleFilter ℚ := samplePF 2 1 [⟨1, 1, 0⟩, ⟨2, 2, 0⟩] 0

/-- A scored state over the rationals. -/
def scoredPF : ParticleFilter ℚ := samplePF 2 1 [⟨1, 1, 1 / 2⟩, ⟨2, 2, 1⟩] 1

/-- The position the walk of the wheel is at after `t` steps from `idx`. -/
def walkPos (N : Int) : Nat → Int → Int
  | 0, idx => idx
  | t + 1, idx => walkPos N t ((idx + 1).tmod N)

/-- The weight of the particle at position `i`, and `0` outside the list. -/
def weightOfPos {F : Type} [LinearOrderedField F] (l : List (Particle F)) (i : Int) : F :=
  match index l i with
  | .ok p => p.Weight
  | .error _ => 0

/-- The `beta` that remains after the walk from `idx` has passed `t`
particles: the drawn `beta` minus their weights. -/
def remainingBeta {F : Type} [LinearOrderedField F] (l : List (Particle F)) (N : Int) :
    Nat → F → Int → F
  | 0, beta, _ => beta
  | t + 1, beta, idx => remainingBeta l N t (beta - weightOfPos l idx) ((idx + 1).tmod N)

/-- The accumulator of the wheel before its first repetition. -/
def startAcc {F : Type} [LinearOrderedField F] (g : Rng F) : WheelAcc F :=
  { g := g, newParticleList := [], xLoc := 0, yLoc := 0 }

/-- A scored state over the rationals that resamples half of its population. -/
def halfPF : ParticleFilter ℚ := samplePF 2 (1 / 2) [⟨1, 1, 1 / 2⟩, ⟨2, 2, 1⟩] 1

/-- A state over the rationals whose population is shorter than `NumSamples`. -/
def shortPF : ParticleFilter ℚ := samplePF 2 1 [⟨1, 1, 1⟩] 1


/-! ## Facts about the aggregation loop -/

section AggregatorFacts

variable {F : Type} [LinearOrderedField F]

theorem sumDist_eq_sum (anch : List (Reading F)) :
    sumDist anch = (anch.map (fun r => r.Dist)).sum := by
  have key : ∀ (l : List (Reading F)) (a : F),
      l.foldl (fun avg r => avg + r.Dist) a = a + (l.map (fun r => r.Dist)).sum := by
    intro l
    induction l with
    | nil => intro a; simp
    | cons x xs ih => intro a; simp [ih, add_assoc]
  simp [sumDist, key]

theorem ingest_not_ready (s : Aggregator F) (r : Reading F)
    (h : ¬ (5 ≤ (buffer s r).anch1.length ∧ 5 ≤ (buffer s r).anch2.length)) :
    ingest s r = (buffer s r, none) := by
  unfold ingest
  simp only [dif_neg h]

theorem ingest_ready (s : Aggregator F) (r : Reading F)
    (h : 5 ≤ (buffer s r).anch1.length ∧ 5 ≤ (buffer s r).anch2.length) :
    ∃ a l1 b l2, (buffer s r).anch1 = a :: l1 ∧ (buffer s r).anch2 = b :: l2 ∧
      ingest s r = (Aggregator.empty,
        some [⟨a.Anchor, sumDist (a :: l1) / (((a :: l1).length : Nat) : F)⟩,
              ⟨b.Anchor, sumDist (b :: l2) / (((b :: l2).length : Nat) : F)⟩]) := by
  obtain ⟨h1, h2⟩ := h
  cases e1 : (buffer s r).anch1 with
  | nil => rw [e1] at h1; simp at h1
  | cons a l1 =>
    cases e2 : (buffer s r).anch2 with
    | nil => rw [e2] at h2; simp at h2
    | cons b l2 =>
      refine ⟨a, l1, b, l2, rfl, rfl, ?_⟩
      unfold ingest
      have h : 5 ≤ (buffer s r).anch1.length ∧ 5 ≤ (buffer s r).anch2.length := ⟨h1, h2⟩
      simp only [dif_pos h]
      simp [e1, e2, Aggregator.empty]

end AggregatorFacts

section AggregatorRuns

variable {F : Type} [LinearOrderedField F]

theorem buffer_anch1 {F : Type} (s : Aggregator F) (r : Reading F) :
    (buffer s r).anch1 = s.anch1 ++ [r].filter (fun x => x.Anchor = "A9CF") := by
  unfold buffer
  by_cases h1 : r.Anchor = "A9CF"
  · simp [h1]
  · by_cases h2 : r.Anchor = "F95B" <;> simp [h1, h2]

theorem buffer_anch2 {F : Type} (s : Aggregator F) (r : Reading F) :
    (buffer s r).anch2 = s.anch2 ++ [r].filter (fun x => x.Anchor = "F95B") := by
  unfold buffer
  by_cases h1 : r.Anchor = "A9CF"
  · have h2 : r.Anchor ≠ "F95B" := by rw [h1]; decide
    simp [h1, h2]
  · by_cases h2 : r.Anchor = "F95B" <;> simp [h1, h2]

theorem buffer_length_le {F : Type} (s : Aggregator F) (r : Reading F) :
    (buffer s r).anch1.length + (buffer s r).anch2.length
      ≤ s.anch1.length + s.anch2.length + 1 := by
  unfold buffer
  by_cases h1 : r.Anchor = "A9CF"
  · simp [h1]; omega
  · by_cases h2 : r.Anchor = "F95B"
    · simp [h1, h2]; omega
    · simp [h1, h2]

theorem ingestAll_append (s : Aggregator F) (as bs : List (Reading F)) :
    ingestAll s (as ++ bs) =
      ((ingestAll (ingestAll s as).1 bs).1,
        (ingestAll s as).2 ++ (ingestAll (ingestAll s as).1 bs).2) := by
  induction as generalizing s with
  | nil => simp [ingestAll]
  | cons a as ih => simp [ingestAll, ih, List.append_assoc]

/-- A run that sends nothing leaves in each buffer the readings of its anchor, in order. -/
theorem ingestAll_silent (s : Aggregator F) (rs : List (Reading F))
    (h : (ingestAll s rs).2 = []) :
    (ingestAll s rs).1 =
      ⟨s.anch1 ++ rs.filter (fun x => x.Anchor = "A9CF"),
       s.anch2 ++ rs.filter (fun x => x.Anchor = "F95B")⟩ := by
  induction rs generalizing s with
  | nil => simp [ingestAll]
  | cons r rs ih =>
    simp only [ingestAll] at h ⊢
    by_cases hr : 5 ≤ (buffer s r).anch1.length ∧ 5 ≤ (buffer s r).anch2.length
    · obtain ⟨a, l1, b, l2, -, -, e⟩ := ingest_ready s r hr
      rw [e] at h
      simp at h
    · rw [ingest_not_ready s r hr] at h ⊢
      simp only [Option.toList, List.nil_append] at h
      rw [ih (buffer s r) h, buffer_anch1, buffer_anch2]
      simp [List.filter_cons, List.append_assoc]
      constructor <;> split <;> simp

/-- Fewer than ten readings in all cannot fill both buffers. -/
theorem ingestAll_short (s : Aggregator F) (rs : List (Reading F))
    (h : s.anch1.length + s.anch2.length + rs.length < 10) :
    (ingestAll s rs).2 = [] := by
  induction rs generalizing s with
  | nil => simp [ingestAll]
  | cons r rs ih =>
    have hb := buffer_length_le s r
    simp only [List.length_cons] at h
    have hr : ¬ (5 ≤ (buffer s r).anch1.length ∧ 5 ≤ (buffer s r).anch2.length) := by omega
    simp only [ingestAll, ingest_not_ready s r hr, Option.toList, List.nil_append]
    exact ih (buffer s r) (by omega)

/-- After every ingest the two buffers are not both of length five or more. -/
theorem ingest_not_full (s : Aggregator F) (r : Reading F) :
    ¬ (5 ≤ (ingest s r).1.anch1.length ∧ 5 ≤ (ingest s r).1.anch2.length) := by
  by_cases hr : 5 ≤ (buffer s r).anch1.length ∧ 5 ≤ (buffer s r).anch2.length
  · obtain ⟨a, l1, b, l2, -, -, e⟩ := ingest_ready s r hr
    rw [e]; simp [Aggregator.empty]
  · rw [ingest_not_ready s r hr]; exact hr

theorem ingestAll_not_full (s : Aggregator F) (rs : List (Reading F))
    (h : ¬ (5 ≤ s.anch1.length ∧ 5 ≤ s.anch2.length)) :
    ¬ (5 ≤ (ingestAll s rs).1.anch1.length ∧ 5 ≤ (ingestAll s rs).1.anch2.length) := by
  induction rs generalizing s with
  | nil => simpa [ingestAll] using h
  | cons r rs ih =>
    simp only [ingestAll]
    exact ih _ (ingest_not_full s r)

end AggregatorRuns

section AggregatorClaims

variable {F : Type} [LinearOrderedField F]

theorem mean_distsOf (a : String) (l : List (Reading F))
    (hl : l.filter (fun x => x.Anchor = a) = l) :
    sumDist l / ((l.length : Nat) : F) = mean (distsOf a l) := by
  simp [mean, distsOf, hl, sumDist_eq_sum]

theorem head_anchor_of_filter {F : Type} (a : String) (rs : List (Reading F)) (x : Reading F)
    (l : List (Reading F)) (h : rs.filter (fun y => y.Anchor = a) = x :: l) :
    x.Anchor = a := by
  have hx : x ∈ rs.filter (fun y => y.Anchor = a) := by rw [h]; simp
  simpa using (List.mem_filter.mp hx).2

/-- An emission from buffers that were filled from empty by `rs` and then `r`. -/
theorem ingest_emission_from_empty (rs : List (Reading F)) (r : Reading F)
    (hs : (ingestAll (Aggregator.empty : Aggregator F) rs).2 = [])
    (hr : 5 ≤ (distsOf "A9CF" (rs ++ [r])).length ∧ 5 ≤ (distsOf "F95B" (rs ++ [r])).length) :
    ingest (ingestAll (Aggregator.empty : Aggregator F) rs).1 r =
      (Aggregator.empty,
        some [⟨"A9CF", mean (distsOf "A9CF" (rs ++ [r]))⟩,
              ⟨"F95B", mean (distsOf "F95B" (rs ++ [r]))⟩]) := by
  have hst : (ingestAll (Aggregator.empty : Aggregator F) rs).1 =
      ⟨rs.filter (fun x => x.Anchor = "A9CF"), rs.filter (fun x => x.Anchor = "F95B")⟩ := by
    simpa [Aggregator.empty] using ingestAll_silent Aggregator.empty rs hs
  have e1 : (buffer (ingestAll (Aggregator.empty : Aggregator F) rs).1 r).anch1
      = (rs ++ [r]).filter (fun x => x.Anchor = "A9CF") := by
    rw [buffer_anch1, hst, List.filter_append]
  have e2 : (buffer (ingestAll (Aggregator.empty : Aggregator F) rs).1 r).anch2
      = (rs ++ [r]).filter (fun x => x.Anchor = "F95B") := by
    rw [buffer_anch2, hst, List.filter_append]
  have hready : 5 ≤ (buffer (ingestAll (Aggregator.empty : Aggregator F) rs).1 r).anch1.length ∧
      5 ≤ (buffer (ingestAll (Aggregator.empty : Aggregator F) rs).1 r).anch2.length := by
    rw [e1, e2]
    simpa [distsOf] using hr
  obtain ⟨a, l1, b, l2, ha, hb, e⟩ := ingest_ready _ r hready
  rw [e]
  rw [e1] at ha
  rw [e2] at hb
  have ha1 := head_anchor_of_filter "A9CF" _ a l1 ha
  have hb1 := head_anchor_of_filter "F95B" _ b l2 hb
  have hm1 : sumDist (a :: l1) / (((a :: l1).length : Nat) : F)
      = mean (distsOf "A9CF" (rs ++ [r])) := by
    rw [mean_distsOf "A9CF" (a :: l1) (by rw [← ha, List.filter_filter]; simp)]
    simp [distsOf, ← ha, List.filter_filter]
  have hm2 : sumDist (b :: l2) / (((b :: l2).length : Nat) : F)
      = mean (distsOf "F95B" (rs ++ [r])) := by
    rw [mean_distsOf "F95B" (b :: l2) (by rw [← hb, List.filter_filter]; simp)]
    simp [distsOf, ← hb, List.filter_filter]
  rw [ha1, hb1, hm1, hm2]

end AggregatorClaims

section AggregatorMain

variable {F : Type} [LinearOrderedField F]

theorem buffer_after_silent (rs : List (Reading F)) (r : Reading F)
    (hs : (ingestAll (Aggregator.empty : Aggregator F) rs).2 = []) :
    (buffer (ingestAll (Aggregator.empty : Aggregator F) rs).1 r).anch1
        = (rs ++ [r]).filter (fun x => x.Anchor = "A9CF") ∧
    (buffer (ingestAll (Aggregator.empty : Aggregator F) rs).1 r).anch2
        = (rs ++ [r]).filter (fun x => x.Anchor = "F95B") := by
  have hst : (ingestAll (Aggregator.empty : Aggregator F) rs).1 =
      ⟨rs.filter (fun x => x.Anchor = "A9CF"), rs.filter (fun x => x.Anchor = "F95B")⟩ := by
    simpa [Aggregator.empty] using ingestAll_silent Aggregator.empty rs hs
  constructor
  · rw [buffer_anch1, hst, List.filter_append]
  · rw [buffer_anch2, hst, List.filter_append]

/-- C4: when the aggregator emits, the buffers are empty afterwards; if the
buffers were filled from empty by `rs` (with no emission) and then `r`, the
emitted observation is the reading for A9CF followed by the reading for F95B,
each with the arithmetic mean of the distances of its anchor in `rs ++ [r]`;
and ten readings, five per anchor in any interleaving, emit nothing for the
first nine and the two means at the tenth. -/
theorem aggregator_emits_means :
    (∀ (s s' : Aggregator F) (r : Reading F) (obs : List (Reading F)),
      ingest s r = (s', some obs) → s' = Aggregator.empty) ∧
    (∀ (rs : List (Reading F)) (r : Reading F) (s' : Aggregator F) (obs : List (Reading F)),
      (ingestAll (Aggregator.empty : Aggregator F) rs).2 = [] →
      ingest (ingestAll (Aggregator.empty : Aggregator F) rs).1 r = (s', some obs) →
      obs = [⟨"A9CF", mean (distsOf "A9CF" (rs ++ [r]))⟩,
             ⟨"F95B", mean (distsOf "F95B" (rs ++ [r]))⟩]) ∧
    (∀ rs : List (Reading F), rs.length = 10 →
      (distsOf "A9CF" rs).length = 5 → (distsOf "F95B" rs).length = 5 →
      (ingestAll (Aggregator.empty : Aggregator F) (rs.take 9)).2 = [] ∧
      ingestAll (Aggregator.empty : Aggregator F) rs =
        (Aggregator.empty,
          [[⟨"A9CF", mean (distsOf "A9CF" rs)⟩, ⟨"F95B", mean (distsOf "F95B" rs)⟩]])) := by
  refine ⟨?_, ?_, ?_⟩
  · intro s s' r obs h
    by_cases hr : 5 ≤ (buffer s r).anch1.length ∧ 5 ≤ (buffer s r).anch2.length
    · obtain ⟨a, l1, b, l2, -, -, e⟩ := ingest_ready s r hr
      rw [e] at h
      exact (congrArg Prod.fst h).symm
    · rw [ingest_not_ready s r hr] at h
      simp at h
  · intro rs r s' obs hs h
    by_cases hr : 5 ≤ (distsOf "A9CF" (rs ++ [r])).length ∧
        5 ≤ (distsOf "F95B" (rs ++ [r])).length
    · rw [ingest_emission_from_empty rs r hs hr] at h
      simpa using (congrArg Prod.snd h).symm
    · obtain ⟨e1, e2⟩ := buffer_after_silent rs r hs
      have hn : ¬ (5 ≤ (buffer (ingestAll (Aggregator.empty : Aggregator F) rs).1 r).anch1.length ∧
          5 ≤ (buffer (ingestAll (Aggregator.empty : Aggregator F) rs).1 r).anch2.length) := by
        rw [e1, e2]
        simpa [distsOf] using hr
      rw [ingest_not_ready _ r hn] at h
      simp at h
  · intro rs hlen h1 h2
    have hshort : (ingestAll (Aggregator.empty : Aggregator F) (rs.take 9)).2 = [] := by
      apply ingestAll_short
      simp [Aggregator.empty, hlen]
    refine ⟨hshort, ?_⟩
    have hdrop : (rs.drop 9).length = 1 := by simp [hlen]
    obtain ⟨x, hx⟩ := List.length_eq_one.mp hdrop
    have hsplit : rs = rs.take 9 ++ [x] := by
      rw [← hx, List.take_append_drop]
    have hemit := ingest_emission_from_empty (rs.take 9) x hshort
      (by rw [← hsplit, h1, h2]; exact ⟨le_refl 5, le_refl 5⟩)
    rw [← hsplit] at hemit
    conv_lhs => rw [hsplit]
    rw [ingestAll_append, hshort]
    simp [ingestAll, hemit]

/-- C4, at ten concrete readings over the rationals. -/
theorem aggregator_emits_means_witness :
    ingestAll (Aggregator.empty : Aggregator ℚ)
      [⟨"A9CF", 1⟩, ⟨"F95B", 2⟩, ⟨"A9CF", 2⟩, ⟨"A9CF", 3⟩, ⟨"F95B", 4⟩,
       ⟨"F95B", 6⟩, ⟨"A9CF", 4⟩, ⟨"F95B", 3⟩, ⟨"A9CF", 5⟩, ⟨"F95B", 5⟩] =
      (Aggregator.empty, [[⟨"A9CF", 3⟩, ⟨"F95B", 4⟩]]) := by
  have h := ((@aggregator_emits_means ℚ _).2.2
    [⟨"A9CF", 1⟩, ⟨"F95B", 2⟩, ⟨"A9CF", 2⟩, ⟨"A9CF", 3⟩, ⟨"F95B", 4⟩,
     ⟨"F95B", 6⟩, ⟨"A9CF", 4⟩, ⟨"F95B", 3⟩, ⟨"A9CF", 5⟩, ⟨"F95B", 5⟩]
    rfl (by simp [distsOf]) (by simp [distsOf])).2
  rw [h]
  simp [mean, distsOf]
  norm_num

/-- C5: an ingest emits exactly when, after the reading has been appended to
the buffer of its anchor, both buffers have length at least five; when it does
not emit, the new state is the old one with that single append (to the first
buffer for A9CF, to the second for F95B, none for any other anchor). -/
theorem ingest_emits_iff (s : Aggregator F) (r : Reading F) :
    ((ingest s r).2.isSome = true ↔
      (5 ≤ (s.anch1 ++ [r].filter (fun x => x.Anchor = "A9CF")).length ∧
       5 ≤ (s.anch2 ++ [r].filter (fun x => x.Anchor = "F95B")).length)) ∧
    ((ingest s r).2 = none →
      (ingest s r).1 =
        (if r.Anchor = "A9CF" then ⟨s.anch1 ++ [r], s.anch2⟩
         else if r.Anchor = "F95B" then ⟨s.anch1, s.anch2 ++ [r]⟩
         else s)) := by
  rw [← buffer_anch1, ← buffer_anch2]
  by_cases hr : 5 ≤ (buffer s r).anch1.length ∧ 5 ≤ (buffer s r).anch2.length
  · obtain ⟨a, l1, b, l2, -, -, e⟩ := ingest_ready s r hr
    rw [e]
    simp [hr]
  · rw [ingest_not_ready s r hr]
    refine ⟨by simp [hr], fun _ => ?_⟩
    simp only [buffer]

/-- C6: in every state reached from the empty buffers by a sequence of
ingests, a reading whose anchor is neither A9CF nor F95B leaves both buffers
as they are and emits nothing. -/
theorem unknown_anchor_dropped (rs : List (Reading F)) (r : Reading F)
    (h1 : r.Anchor ≠ "A9CF") (h2 : r.Anchor ≠ "F95B") :
    ingest (ingestAll (Aggregator.empty : Aggregator F) rs).1 r =
      ((ingestAll (Aggregator.empty : Aggregator F) rs).1, none) := by
  have hb : buffer (ingestAll (Aggregator.empty : Aggregator F) rs).1 r
      = (ingestAll (Aggregator.empty : Aggregator F) rs).1 := by
    simp [buffer, h1, h2]
  have hn := ingestAll_not_full (Aggregator.empty : Aggregator F) rs
    (by simp [Aggregator.empty])
  rw [← hb] at hn
  rw [ingest_not_ready _ r hn, hb]

/-- C6, after six readings over the rationals. -/
theorem unknown_anchor_dropped_witness :
    ingest (ingestAll (Aggregator.empty : Aggregator ℚ)
        [⟨"A9CF", 1⟩, ⟨"A9CF", 2⟩, ⟨"A9CF", 3⟩, ⟨"A9CF", 4⟩, ⟨"A9CF", 5⟩, ⟨"F95B", 1⟩]).1
        ⟨"0000", 7⟩ =
      ((ingestAll (Aggregator.empty : Aggregator ℚ)
        [⟨"A9CF", 1⟩, ⟨"A9CF", 2⟩, ⟨"A9CF", 3⟩, ⟨"A9CF", 4⟩, ⟨"A9CF", 5⟩, ⟨"F95B", 1⟩]).1,
       none) :=
  unknown_anchor_dropped _ ⟨"0000", 7⟩ (by decide) (by decide)

end AggregatorMain

/-! ## Facts about `CalculateWeights` -/

section WeightFacts

variable {F : Type} [LinearOrderedField F]

theorem readingWeight_ok (M : MathOps F) (pf : ParticleFilter F) (p : Particle F)
    (r : Reading F) (q : F × F) (h : anchorPos pf.Anchors r.Anchor = some q) :
    readingWeight M pf p r = .ok (weightAt M pf p q r) := by
  unfold anchorPos at h
  unfold readingWeight
  cases e : mapGet pf.Anchors r.Anchor with
  | nil => rw [e] at h; simp at h
  | cons a0 t =>
    cases t with
    | nil => rw [e] at h; simp at h
    | cons a1 rest =>
      rw [e] at h
      simp only [Option.some.injEq] at h
      subst h
      simp [index, weightAt, bind, Except.bind, pure, Except.pure]

theorem readingWeights_ok (M : MathOps F) (pf : ParticleFilter F) (p : Particle F)
    (pos : String → F × F) (rs : List (Reading F)) (weights : List F)
    (h : ∀ r ∈ rs, anchorPos pf.Anchors r.Anchor = some (pos r.Anchor)) :
    readingWeights M pf p rs weights
      = .ok (weights ++ rs.map (fun r => weightAt M pf p (pos r.Anchor) r)) := by
  induction rs generalizing weights with
  | nil => simp [readingWeights, pure, Except.pure]
  | cons r rs ih =>
    have hr := readingWeight_ok M pf p r (pos r.Anchor) (h r (by simp))
    simp only [readingWeights, hr, bind, Except.bind]
    rw [ih _ (fun x hx => h x (by simp [hx]))]
    simp

theorem checkAndSetMaxWeight_false (pf : ParticleFilter F) (w : F) :
    checkAndSetMaxWeight pf w false = { pf with MaxWeight := max pf.MaxWeight w } := by
  unfold checkAndSetMaxWeight
  by_cases h : w > pf.MaxWeight
  · simp [h, max_eq_right (le_of_lt h)]
  · have h2 : w ≤ pf.MaxWeight := not_lt.mp h
    simp [h, max_eq_left h2]

theorem checkAndSetMaxWeight_true (pf : ParticleFilter F) (w : F) :
    checkAndSetMaxWeight pf w true = { pf with MaxWeight := w } := by
  unfold checkAndSetMaxWeight
  by_cases h : w > pf.MaxWeight <;> simp [h]

theorem particleWeight_congr (M : MathOps F) (pf pf2 : ParticleFilter F)
    (pos : String → F × F) (rs : List (Reading F)) (p : Particle F)
    (hs : pf2.Sigma = pf.Sigma) :
    particleWeight M pf2 pos rs p = particleWeight M pf pos rs p := by
  simp [particleWeight, weightAt, calculateNormDist, hs]

/-- The loop over the particles completes when every reading names an
anchor with a registered position, with the weights and the maximum it computes. -/
theorem weighParticles_ok (M : MathOps F) (rs : List (Reading F)) (pos : String → F × F)
    (pf : ParticleFilter F) (ps : List (Particle F))
    (h : ∀ r ∈ rs, anchorPos pf.Anchors r.Anchor = some (pos r.Anchor)) :
    weighParticles M rs pf ps =
      .ok ({ pf with MaxWeight :=
              (ps.map (particleWeight M pf pos rs)).foldl max pf.MaxWeight },
           ps.map (fun p => p.UpdateWeight (particleWeight M pf pos rs p))) := by
  induction ps generalizing pf with
  | nil => simp [weighParticles, pure, Except.pure]
  | cons p ps ih =>
    have hw : (rs.map (fun r => weightAt M pf p (pos r.Anchor) r)).foldl
        (fun acc w => acc * w) 1.0 = particleWeight M pf pos rs p := rfl
    simp only [weighParticles, readingWeights_ok M pf p pos rs [] h, bind, Except.bind,
      List.nil_append, checkAndSetMaxWeight_false, hw]
    rw [ih { pf with MaxWeight := max pf.MaxWeight (particleWeight M pf pos rs p) } h]
    have hc : ∀ q, particleWeight M
        { pf with MaxWeight := max pf.MaxWeight (particleWeight M pf pos rs p) } pos rs q
        = particleWeight M pf pos rs q := fun q => particleWeight_congr M _ _ pos rs q rfl
    have hcf := funext hc
    simp only [pure, Except.pure, List.map_cons, List.foldl_cons, hc, hcf]

/-- `CalculateWeights` completes when every reading names an anchor with a
registered position; its result is the state with the weights replaced and
`MaxWeight` the largest of `0` and the weights. -/
theorem CalculateWeights_ok (M : MathOps F) (pf : ParticleFilter F) (rs : List (Reading F))
    (pos : String → F × F)
    (h : ∀ r ∈ rs, anchorPos pf.Anchors r.Anchor = some (pos r.Anchor)) :
    CalculateWeights M pf rs =
      .ok { pf with
        MaxWeight := (pf.ListParticles.map (particleWeight M pf pos rs)).foldl max 0
        ListParticles :=
          pf.ListParticles.map (fun p => p.UpdateWeight (particleWeight M pf pos rs p)) } := by
  have hc : ∀ m, particleWeight M { pf with MaxWeight := m } pos rs
      = particleWeight M pf pos rs :=
    fun m => funext (fun q => particleWeight_congr M _ _ pos rs q rfl)
  have hz : (0.0 : F) = 0 := by norm_num
  unfold CalculateWeights
  simp only [checkAndSetMaxWeight_true, bind, Except.bind]
  rw [weighParticles_ok M rs pos { pf with MaxWeight := (0.0 : F) } pf.ListParticles h]
  simp only [pure, Except.pure, hc, hz]

end WeightFacts

section MaxWeightFacts

variable {F : Type} [LinearOrderedField F]

theorem foldl_max_ge (l : List F) (a : F) :
    a ≤ l.foldl max a ∧ ∀ x ∈ l, x ≤ l.foldl max a := by
  induction l generalizing a with
  | nil => simp
  | cons y ys ih =>
    obtain ⟨h1, h2⟩ := ih (max a y)
    refine ⟨le_trans (le_max_left a y) h1, ?_⟩
    intro x hx
    rcases List.mem_cons.mp hx with rfl | hx
    · exact le_trans (le_max_right a x) h1
    · exact h2 x hx

theorem foldl_max_mem (l : List F) (a : F) :
    l.foldl max a = a ∨ l.foldl max a ∈ l := by
  induction l generalizing a with
  | nil => simp
  | cons y ys ih =>
    simp only [List.foldl_cons, List.mem_cons]
    rcases ih (max a y) with h | h
    · rcases max_choice a y with e | e
      · left; rw [h, e]
      · right; left; rw [h, e]
    · right; right; exact h

/-- Whenever the loop over the particles completes, the `MaxWeight` it leaves
is the largest of the `MaxWeight` it started from and the weights it assigned. -/
theorem weighParticles_maxWeight (M : MathOps F) (rs : List (Reading F))
    (pf pf' : ParticleFilter F) (ps ps' : List (Particle F))
    (h : weighParticles M rs pf ps = .ok (pf', ps')) :
    pf'.MaxWeight = (ps'.map (fun p => p.Weight)).foldl max pf.MaxWeight := by
  induction ps generalizing pf pf' ps' with
  | nil =>
    simp only [weighParticles, pure, Except.pure, Except.ok.injEq, Prod.mk.injEq] at h
    obtain ⟨rfl, rfl⟩ := h
    simp
  | cons p ps ih =>
    simp only [weighParticles, bind, Except.bind] at h
    cases hw : readingWeights M pf p rs [] with
    | error e => rw [hw] at h; simp at h
    | ok ws =>
      rw [hw] at h
      simp only at h
      cases hr : weighParticles M rs
          (checkAndSetMaxWeight pf (ws.foldl (fun acc w => acc * w) 1.0) false) ps with
      | error e => rw [hr] at h; simp at h
      | ok v =>
        rw [hr] at h
        simp only [pure, Except.pure, Except.ok.injEq, Prod.mk.injEq] at h
        obtain ⟨rfl, rfl⟩ := h
        have := ih _ v.1 v.2 hr
        rw [this, checkAndSetMaxWeight_false]
        simp [Particle.UpdateWeight]

theorem CalculateWeights_maxWeight (M : MathOps F) (pf pf' : ParticleFilter F)
    (rs : List (Reading F)) (h : CalculateWeights M pf rs = .ok pf') :
    pf'.MaxWeight = (pf'.ListParticles.map (fun p => p.Weight)).foldl max 0 := by
  unfold CalculateWeights at h
  simp only [bind, Except.bind, checkAndSetMaxWeight_true] at h
  cases hr : weighParticles M rs { pf with MaxWeight := (0.0 : F) } pf.ListParticles with
  | error e => rw [hr] at h; simp at h
  | ok v =>
    rw [hr] at h
    simp only [pure, Except.pure, Except.ok.injEq] at h
    subst h
    have := weighParticles_maxWeight M rs _ v.1 _ v.2 hr
    simp only [this]
    norm_num

theorem CalculateWeights_prior (M : MathOps F) (pf : ParticleFilter F)
    (rs : List (Reading F)) (m : F) :
    CalculateWeights M { pf with MaxWeight := m } rs = CalculateWeights M pf rs := by
  unfold CalculateWeights
  simp only [checkAndSetMaxWeight_true]

end MaxWeightFacts

section RealFacts

theorem weightAt_real (pf : ParticleFilter ℝ) (p : Particle ℝ) (q : ℝ × ℝ) (r : Reading ℝ) :
    weightAt realMath pf p q r
      = gaussianLikelihood pf.Sigma (euclideanDistance (p.X, p.Y) q) r.Dist := by
  have h2 : (2.0 : ℝ) = 2 := by norm_num
  simp only [weightAt, calculateNormDist, realMath, gaussianLikelihood, euclideanDistance, h2,
    Real.rpow_two, Real.exp_one_rpow]

theorem particleWeight_real (pf : ParticleFilter ℝ) (pos : String → ℝ × ℝ)
    (rs : List (Reading ℝ)) (p : Particle ℝ) :
    particleWeight realMath pf pos rs p
      = (rs.map (fun r => gaussianLikelihood pf.Sigma
          (euclideanDistance (p.X, p.Y) (pos r.Anchor)) r.Dist)).prod := by
  have h1 : (1.0 : ℝ) = 1 := by norm_num
  simp only [particleWeight, weightAt_real, h1]
  rw [List.prod_eq_foldl]

theorem gaussianLikelihood_nonneg (sigma d x : ℝ) (hs : 0 < sigma) :
    0 ≤ gaussianLikelihood sigma d x := by
  unfold gaussianLikelihood
  have h1 : 0 ≤ sigma * Real.sqrt (2 * Real.pi) :=
    mul_nonneg (le_of_lt hs) (Real.sqrt_nonneg _)
  exact mul_nonneg (div_nonneg zero_le_one h1) (le_of_lt (Real.exp_pos _))

end RealFacts

theorem realObs_registered :
    ∀ r ∈ realObs, anchorPos realPF.Anchors r.Anchor = some (realPos r.Anchor) := by
  intro r hr
  simp only [realObs, List.mem_cons, List.mem_singleton, List.not_mem_nil, or_false] at hr
  rcases hr with rfl | rfl <;>
    simp [anchorPos, mapGet, realPF, realPos, List.lookup]

section WeightClaims

/-- C1: when every reading of the observation names an anchor with a
registered position, `CalculateWeights` completes and leaves each particle at
its position with `Weight` the product, over the readings `r`, of the Gaussian
density `(1/(Sigma*sqrt(2*pi))) * exp(-0.5*((r.Dist - d)/Sigma)^2)`, `d` being
the Euclidean distance from the particle to the position of `r.Anchor`; for
the empty observation every weight is `1`. -/
theorem calculateWeights_product (pf : ParticleFilter ℝ) (rs : List (Reading ℝ))
    (pos : String → ℝ × ℝ)
    (hreg : ∀ r ∈ rs, anchorPos pf.Anchors r.Anchor = some (pos r.Anchor)) :
    ∃ pf', CalculateWeights realMath pf rs = .ok pf' ∧
      pf'.ListParticles = pf.ListParticles.map (fun p =>
        ({ X := p.X, Y := p.Y,
           Weight := (rs.map (fun r => gaussianLikelihood pf.Sigma
              (euclideanDistance (p.X, p.Y) (pos r.Anchor)) r.Dist)).prod } : Particle ℝ)) ∧
      (rs = [] → ∀ p ∈ pf'.ListParticles, p.Weight = 1) := by
  refine ⟨_, CalculateWeights_ok realMath pf rs pos hreg, ?_, ?_⟩
  · simp only [Particle.UpdateWeight, particleWeight_real]
  · intro hrs p hp
    subst hrs
    simp only [Particle.UpdateWeight, particleWeight_real, List.mem_map] at hp
    obtain ⟨q, -, rfl⟩ := hp
    simp

/-- C1, at a state with two particles and one reading per anchor. -/
theorem calculateWeights_product_witness :
    ∃ pf', CalculateWeights realMath realPF realObs = .ok pf' ∧
      pf'.ListParticles = realPF.ListParticles.map (fun p =>
        ({ X := p.X, Y := p.Y,
           Weight := (realObs.map (fun r => gaussianLikelihood realPF.Sigma
              (euclideanDistance (p.X, p.Y) (realPos r.Anchor)) r.Dist)).prod } : Particle ℝ)) ∧
      (realObs = [] → ∀ p ∈ pf'.ListParticles, p.Weight = 1) :=
  calculateWeights_product realPF realObs realPos realObs_registered

/-- C2: whenever `CalculateWeights` completes, whatever `MaxWeight` was
before (the result is the same for every prior value), the new `MaxWeight` is
the largest of `0` and the weights just assigned: it is at least every
particle's weight, and when some weight is positive it is the weight of a
particle of the population. -/
theorem maxWeight_after_calculateWeights {F : Type} [LinearOrderedField F] (M : MathOps F)
    (pf pf' : ParticleFilter F) (rs : List (Reading F))
    (h : CalculateWeights M pf rs = .ok pf') :
    (∀ m : F, CalculateWeights M { pf with MaxWeight := m } rs = .ok pf') ∧
    pf'.MaxWeight = (pf'.ListParticles.map (fun p => p.Weight)).foldl max 0 ∧
    (∀ p ∈ pf'.ListParticles, p.Weight ≤ pf'.MaxWeight) ∧
    ((∃ p ∈ pf'.ListParticles, 0 < p.Weight) →
      ∃ p ∈ pf'.ListParticles, p.Weight = pf'.MaxWeight) := by
  have hm := CalculateWeights_maxWeight M pf pf' rs h
  have hge := foldl_max_ge (pf'.ListParticles.map (fun p => p.Weight)) 0
  refine ⟨fun m => by rw [CalculateWeights_prior, h], hm, ?_, ?_⟩
  · intro p hp
    rw [hm]
    exact hge.2 p.Weight (List.mem_map.mpr ⟨p, hp, rfl⟩)
  · rintro ⟨p, hp, hpos⟩
    have hle : p.Weight ≤ pf'.MaxWeight := by
      rw [hm]; exact hge.2 p.Weight (List.mem_map.mpr ⟨p, hp, rfl⟩)
    rcases foldl_max_mem (pf'.ListParticles.map (fun p => p.Weight)) 0 with h0 | hmem
    · rw [← hm] at h0
      rw [h0] at hle
      exact absurd hpos (not_lt.mpr hle)
    · rw [← hm] at hmem
      obtain ⟨q, hq, hqw⟩ := List.mem_map.mp hmem
      exact ⟨q, hq, hqw⟩

/-- C2, at a state whose stale `MaxWeight` is 1000. -/
theorem maxWeight_after_calculateWeights_witness :
    ∃ pf', CalculateWeights realMath realPF realObs = .ok pf' ∧
      pf'.MaxWeight = (pf'.ListParticles.map (fun p => p.Weight)).foldl max 0 ∧
      (∀ p ∈ pf'.ListParticles, p.Weight ≤ pf'.MaxWeight) :=
  ⟨_, CalculateWeights_ok realMath realPF realObs realPos realObs_registered,
    (maxWeight_after_calculateWeights realMath realPF _ realObs
      (CalculateWeights_ok realMath realPF realObs realPos realObs_registered)).2.1,
    (maxWeight_after_calculateWeights realMath realPF _ realObs
      (CalculateWeights_ok realMath realPF realObs realPos realObs_registered)).2.2.1⟩

/-- C3: when `Sigma > 0` and every reading names an anchor with a registered
position, `CalculateWeights` completes and every particle's `Weight` is
non-negative. -/
theorem weights_nonneg (pf : ParticleFilter ℝ) (rs : List (Reading ℝ))
    (pos : String → ℝ × ℝ) (hs : 0 < pf.Sigma)
    (hreg : ∀ r ∈ rs, anchorPos pf.Anchors r.Anchor = some (pos r.Anchor)) :
    ∃ pf', CalculateWeights realMath pf rs = .ok pf' ∧
      ∀ p ∈ pf'.ListParticles, 0 ≤ p.Weight := by
  refine ⟨_, CalculateWeights_ok realMath pf rs pos hreg, ?_⟩
  intro p hp
  simp only [Particle.UpdateWeight, particleWeight_real, List.mem_map] at hp
  obtain ⟨q, -, rfl⟩ := hp
  apply List.prod_nonneg
  intro a ha
  obtain ⟨r, -, rfl⟩ := List.mem_map.mp ha
  exact gaussianLikelihood_nonneg _ _ _ hs

/-- C3, at a state with `Sigma = 1/2`. -/
theorem weights_nonneg_witness :
    ∃ pf', CalculateWeights realMath realPF realObs = .ok pf' ∧
      ∀ p ∈ pf'.ListParticles, 0 ≤ p.Weight :=
  weights_nonneg realPF realObs realPos (by norm_num [realPF]) realObs_registered

end WeightClaims

/-! ## Facts about the resampling wheel -/

section WheelFacts

variable {F : Type} [LinearOrderedField F]

/-- The inner loop does nothing when `beta` is not positive. -/
theorem wheelWalk_stop (pf : ParticleFilter F) (fuel : Nat) (beta : F) (idx : Int)
    (acc : WheelAcc F) (h : ¬ beta > 0) : wheelWalk pf fuel beta idx acc = .ok acc := by
  cases fuel <;> simp [wheelWalk, h]

theorem index_mem {α : Type} (l : List α) (i : Int) (a : α) (h : index l i = .ok a) :
    a ∈ l := by
  unfold index at h
  split at h
  · simp at h
  · cases e : l.get? i.toNat with
    | none => rw [e] at h; simp at h
    | some b =>
      rw [e] at h
      simp only [Except.ok.injEq] at h
      subst h
      exact List.get?_mem e

/-- A completed walk either appends nothing or accepts exactly one particle of
the population, and that particle has positive weight. -/
theorem wheelWalk_result (pf : ParticleFilter F) (fuel : Nat) (beta : F) (idx : Int)
    (acc acc' : WheelAcc F) (h : wheelWalk pf fuel beta idx acc = .ok acc') :
    acc' = acc ∨ ∃ p ∈ pf.ListParticles, 0 < p.Weight ∧ acc' = accept p acc := by
  induction fuel generalizing beta idx acc with
  | zero =>
    unfold wheelWalk at h
    split at h
    · simp at h
    · left; simpa using h.symm
  | succ fuel ih =>
    unfold wheelWalk at h
    by_cases hb : beta > 0
    · simp only [hb, if_true, bind, Except.bind] at h
      cases hp : index pf.ListParticles idx with
      | error e => rw [hp] at h; simp at h
      | ok p =>
        rw [hp] at h
        simp only at h
        by_cases hN : pf.NumSamples = 0
        · simp [hN] at h
        · simp only [hN, if_false] at h
          by_cases hw : p.Weight > beta
          · simp only [hw, if_true] at h
            rw [wheelWalk_stop pf fuel _ _ _ (by
              have : beta - p.Weight < 0 := sub_neg.mpr hw
              exact not_lt.mpr (le_of_lt this))] at h
            right
            refine ⟨p, index_mem _ _ _ hp, lt_trans hb hw, ?_⟩
            simpa using h.symm
          · simp only [hw, if_false] at h
            exact ih _ _ _ h
    · simp only [hb, if_false] at h
      left; simpa using h.symm

theorem accept_sums (p : Particle F) (acc : WheelAcc F) (h : acc.Sums) :
    (accept p acc).Sums := by
  obtain ⟨hx, hy⟩ := h
  simp [WheelAcc.Sums, accept, hx, hy]

theorem wheelRep_result (pf : ParticleFilter F) (fuel : Nat) (R : Int)
    (acc acc' : WheelAcc F) (h : wheelRep pf fuel R acc = .ok acc') :
    0 < R ∧ ∃ g1 : Rng F,
      (acc' = { acc with g := g1 } ∨
        ∃ p ∈ pf.ListParticles, 0 < p.Weight ∧ acc' = accept p { acc with g := g1 }) := by
  unfold wheelRep at h
  simp only [bind, Except.bind] at h
  cases hk : acc.g.Float64.2.Intn R with
  | error e => rw [hk] at h; simp at h
  | ok k =>
    rw [hk] at h
    simp only at h
    have hR : 0 < R := by
      unfold Rng.Intn at hk
      by_contra hn
      simp [not_lt.mp hn] at hk
    exact ⟨hR, k.2, wheelWalk_result pf fuel _ _ _ _ h⟩

theorem wheelRep_sums (pf : ParticleFilter F) (fuel : Nat) (R : Int)
    (acc acc' : WheelAcc F) (h : wheelRep pf fuel R acc = .ok acc') (hs : acc.Sums) :
    acc'.Sums := by
  obtain ⟨-, g1, hc⟩ := wheelRep_result pf fuel R acc acc' h
  have hs1 : ({ acc with g := g1 } : WheelAcc F).Sums := hs
  rcases hc with rfl | ⟨p, -, -, rfl⟩
  · exact hs1
  · exact accept_sums p _ hs1

theorem wheel_sums (pf : ParticleFilter F) (fuel : Nat) (R : Int) (n : Nat)
    (acc acc' : WheelAcc F) (h : wheel pf fuel R n acc = .ok acc') (hs : acc.Sums) :
    acc'.Sums := by
  induction n generalizing acc with
  | zero =>
    simp only [wheel, Except.ok.injEq] at h
    subst h; exact hs
  | succ n ih =>
    simp only [wheel, bind, Except.bind] at h
    cases hr : wheelRep pf fuel R acc with
    | error e => rw [hr] at h; simp at h
    | ok acc1 =>
      rw [hr] at h
      exact ih acc1 h (wheelRep_sums pf fuel R acc acc1 hr hs)

theorem appendFresh_fst (pf : ParticleFilter F) (n : Nat) (l : List (Particle F)) (g : Rng F) :
    (appendFresh pf n l g).1 = l ++ (appendFresh pf n [] g).1 ∧
    (appendFresh pf n [] g).1.length = n := by
  induction n generalizing l g with
  | zero => simp [appendFresh]
  | succ n ih =>
    simp only [appendFresh, List.nil_append]
    obtain ⟨h1, h2⟩ := ih [(createParticle pf g).1] (createParticle pf g).2
    obtain ⟨h3, -⟩ := ih (l ++ [(createParticle pf g).1]) (createParticle pf g).2
    refine ⟨by rw [h3, h1, List.append_assoc], ?_⟩
    rw [h1]
    simp [h2, Nat.add_comm]

theorem appendFresh_congr (pf pf2 : ParticleFilter F) (hx : pf2.XLimit = pf.XLimit)
    (hy : pf2.YLimit = pf.YLimit) (n : Nat) (l : List (Particle F)) (g : Rng F) :
    appendFresh pf2 n l g = appendFresh pf n l g := by
  induction n generalizing l g with
  | zero => simp [appendFresh]
  | succ n ih => simp [appendFresh, createParticle, hx, hy, ih]

end WheelFacts

section ResampleFacts

variable {F : Type} [LinearOrderedField F] [FloorRing F]

/-- The shape of every completed `ResampleAndFuzz`: the wheel ran to `acc`, the
estimate is its running sums over the resample count, and the new population
is what the wheel appended followed by the fresh particles. -/
theorem ResampleAndFuzz_result (fuel : Nat) (pf pf' : ParticleFilter F) (g g' : Rng F)
    (h : ResampleAndFuzz fuel pf g = .ok (pf', g')) :
    ∃ acc : WheelAcc F,
      wheel { pf with iteration := pf.iteration + 1 } fuel (numIntResample pf)
        (numIntResample pf).toNat ⟨g, [], 0, 0⟩ = .ok acc ∧
      pf'.EstimatedX = acc.xLoc / ((numIntResample pf : Int) : F) ∧
      pf'.EstimatedY = acc.yLoc / ((numIntResample pf : Int) : F) ∧
      pf'.ListParticles = acc.newParticleList ++
        (appendFresh pf (pf.NumSamples - numIntResample pf).toNat [] acc.g).1 ∧
      pf'.MaxWeight = pf.MaxWeight ∧ pf'.iteration = pf.iteration + 1 ∧
      pf'.NumSamples = pf.NumSamples := by
  have hz : (0.0 : F) = 0 := by norm_num
  unfold ResampleAndFuzz at h
  simp only [bind, Except.bind, hz] at h
  have hn : numIntResample { pf with iteration := pf.iteration + 1 } = numIntResample pf := rfl
  rw [hn] at h
  cases hw : wheel { pf with iteration := pf.iteration + 1 } fuel (numIntResample pf)
      (numIntResample pf).toNat ⟨g, [], 0, 0⟩ with
  | error e => rw [hw] at h; simp at h
  | ok acc =>
    rw [hw] at h
    simp only [pure, Except.pure, Except.ok.injEq, Prod.mk.injEq] at h
    obtain ⟨rfl, -⟩ := h
    refine ⟨acc, rfl, rfl, rfl, ?_, rfl, rfl, rfl⟩
    simp only
    rw [(appendFresh_fst _ _ acc.newParticleList acc.g).1]
    congr 2
    apply appendFresh_congr <;> rfl

end ResampleFacts

/-! ## Termination of the walks of the wheel -/

section WheelTermination

variable {F : Type} [LinearOrderedField F]

theorem weightOfIdx_nonneg (l : List (Particle F)) (h : ∀ p ∈ l, 0 ≤ p.Weight) (i : Nat) :
    0 ≤ weightOfIdx l i := by
  unfold weightOfIdx
  cases e : l.get? i with
  | none => simp
  | some p => simpa using h p (List.get?_mem e)

theorem walkSum_nonneg (l : List (Particle F)) (n : Nat) (h : ∀ p ∈ l, 0 ≤ p.Weight)
    (f i : Nat) : 0 ≤ walkSum l n f i := by
  induction f generalizing i with
  | zero => simp [walkSum]
  | succ f ih => exact add_nonneg (weightOfIdx_nonneg l h i) (ih _)

theorem walkSum_mono_succ (l : List (Particle F)) (n : Nat) (h : ∀ p ∈ l, 0 ≤ p.Weight)
    (f i : Nat) : walkSum l n f i ≤ walkSum l n (f + 1) i := by
  induction f generalizing i with
  | zero => simpa [walkSum] using weightOfIdx_nonneg l h i
  | succ f ih =>
    have := ih (nextIdx n i)
    simp only [walkSum] at this ⊢
    linarith

theorem walkSum_mono (l : List (Particle F)) (n : Nat) (h : ∀ p ∈ l, 0 ≤ p.Weight)
    (f f' i : Nat) (hf : f ≤ f') : walkSum l n f i ≤ walkSum l n f' i := by
  induction f' with
  | zero =>
    have : f = 0 := Nat.le_zero.mp hf
    subst this; exact le_refl _
  | succ f' ih =>
    rcases Nat.lt_or_ge f (f' + 1) with hlt | hge
    · exact le_trans (ih (Nat.lt_succ_iff.mp hlt)) (walkSum_mono_succ l n h f' i)
    · have : f = f' + 1 := le_antisymm hf hge
      subst this; exact le_refl _

theorem segSum_succ (l : List (Particle F)) (i k : Nat) :
    segSum l i (k + 1) = weightOfIdx l i + segSum l (i + 1) k := by
  unfold segSum
  rw [List.range_succ_eq_map]
  simp only [List.map_cons, List.sum_cons, List.map_map, Nat.add_zero]
  congr 2
  apply List.map_congr_left
  intro t _
  simp only [Function.comp]
  congr 1
  omega

/-- A walk of `k + m` steps from `i`, where the first `k` do not wrap. -/
theorem walkSum_split (l : List (Particle F)) (n : Nat) (k m i : Nat) (h : i + k ≤ n)
    (hk : 0 < k) :
    walkSum l n (k + m) i = segSum l i k + walkSum l n m (if i + k = n then 0 else i + k) := by
  induction k generalizing i with
  | zero => omega
  | succ k ih =>
    have e : k + 1 + m = (k + m) + 1 := by omega
    rw [e]
    simp only [walkSum]
    rw [segSum_succ]
    rcases Nat.eq_zero_or_pos k with hk0 | hkpos
    · subst hk0
      simp [segSum, nextIdx]
    · have hne : i + 1 ≠ n := by omega
      have hnext : nextIdx n i = i + 1 := by simp [nextIdx, hne]
      rw [hnext, ih (i + 1) (by omega) hkpos]
      have e2 : i + 1 + k = i + (k + 1) := by omega
      rw [e2, add_assoc]

theorem segSum_nonneg (l : List (Particle F)) (h : ∀ p ∈ l, 0 ≤ p.Weight) (i k : Nat) :
    0 ≤ segSum l i k := by
  unfold segSum
  apply List.sum_nonneg
  intro x hx
  obtain ⟨t, -, rfl⟩ := List.mem_map.mp hx
  exact weightOfIdx_nonneg l h _

theorem segSum_ge (l : List (Particle F)) (h : ∀ p ∈ l, 0 ≤ p.Weight) (i k j : Nat)
    (h1 : i ≤ j) (h2 : j < i + k) : weightOfIdx l j ≤ segSum l i k := by
  unfold segSum
  apply List.single_le_sum
  · intro x hx
    obtain ⟨t, -, rfl⟩ := List.mem_map.mp hx
    exact weightOfIdx_nonneg l h _
  · refine List.mem_map.mpr ⟨j - i, List.mem_range.mpr (by omega), ?_⟩
    congr 1
    omega

/-- Two laps of the circle meet every particle twice. -/
theorem walkSum_two_laps (l : List (Particle F)) (n : Nat) (h : ∀ p ∈ l, 0 ≤ p.Weight)
    (i j : Nat) (hi : i < n) (hj : j < n) :
    2 * weightOfIdx l j ≤ walkSum l n (2 * n) i := by
  have e1 : 2 * n = (n - i) + (n + i) := by omega
  rw [e1, walkSum_split l n (n - i) (n + i) i (by omega) (by omega)]
  have e2 : i + (n - i) = n := by omega
  simp only [e2, if_true]
  rw [walkSum_split l n n i 0 (by omega) (by omega)]
  simp only [Nat.zero_add, if_true]
  have hlap := segSum_ge l h 0 n j (Nat.zero_le _) (by omega)
  have hseg1 := segSum_nonneg l h i (n - i)
  rcases Nat.lt_or_ge j i with hji | hij
  · have hrest : weightOfIdx l j ≤ walkSum l n i 0 := by
      have e3 : i = i + 0 := by omega
      rw [e3, walkSum_split l n i 0 0 (by omega) (by omega)]
      simp only [walkSum, add_zero]
      exact segSum_ge l h 0 i j (Nat.zero_le _) (by omega)
    linarith
  · have hfirst := segSum_ge l h i (n - i) j hij (by omega)
    have hrest := walkSum_nonneg l n h i 0
    linarith

end WheelTermination

section WheelTotal

variable {F : Type} [LinearOrderedField F]

theorem index_natCast (l : List (Particle F)) (i : Nat) (hi : i < l.length) :
    ∃ p, index l (i : Int) = .ok p ∧ p.Weight = weightOfIdx l i := by
  have hg : l.get? i = some (l.get ⟨i, hi⟩) := List.get?_eq_get hi
  refine ⟨l.get ⟨i, hi⟩, ?_, ?_⟩
  · unfold index
    have hneg : ¬ ((i : Int) < 0) := by omega
    simp only [hneg, if_false, Int.toNat_ofNat, hg]
  · rw [weightOfIdx, hg]
    rfl

theorem tmod_next (n i : Nat) (hi : i < n) :
    ((i : Int) + 1).tmod (n : Int) = ((nextIdx n i : Nat) : Int) := by
  rw [Int.tmod_eq_emod (by omega) (by omega)]
  unfold nextIdx
  by_cases h : i + 1 = n
  · simp only [h, if_true]
    have : (i : Int) + 1 = (n : Int) := by omega
    rw [this]
    simp
  · simp only [h, if_false]
    rw [Int.emod_eq_of_lt (by omega) (by omega)]
    simp

theorem nextIdx_lt (n i : Nat) (hi : i < n) : nextIdx n i < n := by
  unfold nextIdx
  split <;> omega

/-- A walk completes within `fuel` steps when the weights met by `fuel` steps
of the circle add up to at least `beta`. -/
theorem wheelWalk_total (pf : ParticleFilter F) (n : Nat)
    (hN : pf.NumSamples = (n : Int)) (hlen : pf.ListParticles.length = n)
    (fuel : Nat) (beta : F) (i : Nat) (hi : i < n) (acc : WheelAcc F)
    (hb : beta ≤ walkSum pf.ListParticles n fuel i) :
    ∃ acc', wheelWalk pf fuel beta (i : Int) acc = .ok acc' := by
  induction fuel generalizing beta i acc with
  | zero =>
    simp only [walkSum] at hb
    exact ⟨acc, wheelWalk_stop pf 0 beta _ acc (not_lt.mpr hb)⟩
  | succ fuel ih =>
    by_cases hpos : beta > 0
    · obtain ⟨p, hp, hpw⟩ := index_natCast pf.ListParticles i (by omega)
      have hn0 : pf.NumSamples ≠ 0 := by omega
      unfold wheelWalk
      simp only [hpos, if_true, hp, bind, Except.bind, hn0, if_false]
      rw [hN, tmod_next n i hi]
      apply ih
      · exact nextIdx_lt n i hi
      · simp only [walkSum] at hb
        rw [hpw]
        linarith
    · exact ⟨acc, wheelWalk_stop pf _ beta _ acc hpos⟩

end WheelTotal

section ResampleTotal

variable {F : Type} [LinearOrderedField F]

theorem mem_weightOfIdx (l : List (Particle F)) (p : Particle F) (hp : p ∈ l) :
    ∃ j, j < l.length ∧ weightOfIdx l j = p.Weight := by
  obtain ⟨j, hj, hjp⟩ := List.getElem_of_mem hp
  refine ⟨j, hj, ?_⟩
  rw [weightOfIdx, List.get?_eq_get hj]
  simp only [List.get_eq_getElem, hjp]
  rfl

/-- For a scored state, the drawn `beta` is covered by two laps of the circle. -/
theorem beta_le_walkSum (pf : ParticleFilter F) (hS : Scored pf) (n : Nat)
    (hn : pf.NumSamples = (n : Int)) (u : F) (hu : 0 ≤ u ∧ u < 1) (i : Nat) (hi : i < n)
    (fuel : Nat) (hf : 2 * n ≤ fuel) :
    u * pf.MaxWeight * 2 ≤ walkSum pf.ListParticles n fuel i := by
  have hnn := walkSum_nonneg pf.ListParticles n hS.nonneg fuel i
  have hlen : pf.ListParticles.length = n := by
    have := hS.len
    omega
  rcases hS.maxW with h0 | ⟨p, hp, hle⟩
  · rw [h0]; simpa using hnn
  · obtain ⟨j, hj, hjw⟩ := mem_weightOfIdx pf.ListParticles p hp
    have h2 := walkSum_two_laps pf.ListParticles n hS.nonneg i j hi (by omega)
    have h3 := walkSum_mono pf.ListParticles n hS.nonneg (2 * n) fuel i hf
    rw [hjw] at h2
    have hp0 : 0 ≤ p.Weight := hS.nonneg p hp
    have h4 : u * pf.MaxWeight ≤ p.Weight := by
      rcases le_or_lt pf.MaxWeight 0 with hm | hm
      · exact le_trans (mul_nonpos_of_nonneg_of_nonpos hu.1 hm) hp0
      · have : u * pf.MaxWeight ≤ 1 * pf.MaxWeight :=
          mul_le_mul_of_nonneg_right (le_of_lt hu.2) (le_of_lt hm)
        linarith
    linarith

theorem wheelRep_total (pf : ParticleFilter F) (hS : Scored pf) (R : Int) (hR1 : 0 < R)
    (hR2 : R ≤ pf.NumSamples) (fuel : Nat) (hf : 2 * pf.NumSamples.toNat ≤ fuel)
    (acc : WheelAcc F) (hv : acc.g.Valid) :
    ∃ acc', wheelRep pf fuel R acc = .ok acc' ∧ acc'.g.Valid := by
  have hpos := hS.pos
  have hn : pf.NumSamples = (pf.NumSamples.toNat : Int) := by omega
  have hlen : pf.ListParticles.length = pf.NumSamples.toNat := by
    have := hS.len
    omega
  have hk0 : 0 ≤ ((acc.g.Float64.2.intn 0 : Nat) : Int) % R :=
    Int.emod_nonneg _ (by omega)
  have hk1 : ((acc.g.Float64.2.intn 0 : Nat) : Int) % R < R := Int.emod_lt_of_pos _ hR1
  have hi : (((acc.g.Float64.2.intn 0 : Nat) : Int) % R).toNat < pf.NumSamples.toNat := by omega
  have hb := beta_le_walkSum pf hS pf.NumSamples.toNat hn acc.g.Float64.1 (hv 0) _ hi fuel hf
  obtain ⟨acc', hacc⟩ := wheelWalk_total pf pf.NumSamples.toNat hn hlen fuel
    (acc.g.Float64.1 * pf.MaxWeight * 2) _ hi
    { acc with g := { acc.g.Float64.2 with intn := fun k => acc.g.Float64.2.intn (k + 1) } } hb
  rw [Int.toNat_of_nonneg hk0] at hacc
  have hrep : wheelRep pf fuel R acc = .ok acc' := by
    unfold wheelRep
    simp only [Rng.Intn, not_le.mpr hR1, if_false, bind, Except.bind]
    exact hacc
  refine ⟨acc', hrep, ?_⟩
  have hv1 : ({ acc.g.Float64.2 with intn := fun k => acc.g.Float64.2.intn (k + 1) } :
      Rng F).Valid := fun m => hv (m + 1)
  rcases wheelWalk_result pf fuel _ _ _ _ hacc with rfl | ⟨p, -, -, rfl⟩
  · exact hv1
  · exact hv1

theorem wheel_total (pf : ParticleFilter F) (hS : Scored pf) (R : Int)
    (hR2 : R ≤ pf.NumSamples) (fuel : Nat) (hf : 2 * pf.NumSamples.toNat ≤ fuel)
    (n : Nat) (hn : n = 0 ∨ 0 < R) (acc : WheelAcc F) (hv : acc.g.Valid) :
    ∃ acc', wheel pf fuel R n acc = .ok acc' := by
  induction n generalizing acc with
  | zero => exact ⟨acc, rfl⟩
  | succ n ih =>
    have hR1 : 0 < R := by
      rcases hn with h | h
      · omega
      · exact h
    obtain ⟨acc1, h1, hv1⟩ := wheelRep_total pf hS R hR1 hR2 fuel hf acc hv
    obtain ⟨acc2, h2⟩ := ih (Or.inr hR1) acc1 hv1
    exact ⟨acc2, by simp only [wheel, h1, bind, Except.bind, h2]⟩

theorem numIntResample_le [FloorRing F] (pf : ParticleFilter F) (hS : Scored pf) :
    numIntResample pf ≤ pf.NumSamples := by
  have hN : (0 : F) < (pf.NumSamples : F) := by exact_mod_cast hS.pos
  have h0 : 0 ≤ (pf.NumSamples : F) * pf.PercentResample :=
    mul_nonneg (le_of_lt hN) (le_of_lt hS.frac.1)
  have h1 : (pf.NumSamples : F) * pf.PercentResample ≤ (pf.NumSamples : F) := by
    have := mul_le_mul_of_nonneg_left hS.frac.2 (le_of_lt hN)
    simpa using this
  unfold numIntResample toInt
  simp only [h0, if_true]
  have h2 : ((⌊(pf.NumSamples : F) * pf.PercentResample⌋ : Int) : F) ≤ (pf.NumSamples : F) :=
    le_trans (Int.floor_le _) h1
  exact_mod_cast h2

/-- `ResampleAndFuzz` completes on every scored state when each walk has fuel
for two laps of the population. -/
theorem ResampleAndFuzz_total [FloorRing F] (pf : ParticleFilter F) (hS : Scored pf)
    (g : Rng F) (hv : g.Valid) (fuel : Nat) (hf : 2 * pf.NumSamples.toNat ≤ fuel) :
    ∃ r, ResampleAndFuzz fuel pf g = .ok r := by
  have hS1 : Scored { pf with iteration := pf.iteration + 1 } :=
    ⟨hS.pos, hS.len, hS.nonneg, hS.frac, hS.maxW⟩
  have hle := numIntResample_le pf hS
  have hn : (numIntResample pf).toNat = 0 ∨ 0 < numIntResample pf := by omega
  obtain ⟨acc, hacc⟩ := wheel_total { pf with iteration := pf.iteration + 1 } hS1
    (numIntResample pf) hle fuel hf (numIntResample pf).toNat hn ⟨g, [], 0.0, 0.0⟩ hv
  have hnum : numIntResample { pf with iteration := pf.iteration + 1 } = numIntResample pf := rfl
  unfold ResampleAndFuzz
  simp only [hnum, hacc, bind, Except.bind, pure, Except.pure]
  exact ⟨_, rfl⟩

end ResampleTotal

section NoAccept

variable {F : Type} [LinearOrderedField F]

/-- A repetition whose `beta` is not positive appends nothing. -/
theorem wheelRep_beta_nonpos (pf : ParticleFilter F) (fuel : Nat) (R : Int) (hR : 0 < R)
    (acc : WheelAcc F) (hb : acc.g.float64 0 * pf.MaxWeight * 2 ≤ 0) :
    wheelRep pf fuel R acc = .ok { acc with g :=
      { float64 := fun n => acc.g.float64 (n + 1)
        intn := fun k => acc.g.intn (k + 1)
        norm := acc.g.norm } } := by
  unfold wheelRep
  simp only [Rng.Intn, not_le.mpr hR, if_false, bind, Except.bind]
  rw [wheelWalk_stop pf fuel _ _ _
    (show ¬ (acc.g.Float64.1 * pf.MaxWeight * 2 > 0) from not_lt.mpr hb)]
  rfl

/-- When every drawn `beta` is not positive, the wheel completes and appends nothing. -/
theorem wheel_beta_nonpos (pf : ParticleFilter F) (fuel : Nat) (R : Int) (n : Nat)
    (hn : n = 0 ∨ 0 < R) (acc : WheelAcc F)
    (hb : ∀ k, acc.g.float64 k * pf.MaxWeight * 2 ≤ 0) :
    ∃ acc', wheel pf fuel R n acc = .ok acc' ∧
      acc'.newParticleList = acc.newParticleList ∧ acc'.xLoc = acc.xLoc ∧
      acc'.yLoc = acc.yLoc := by
  induction n generalizing acc with
  | zero => exact ⟨acc, rfl, rfl, rfl, rfl⟩
  | succ n ih =>
    have hR : 0 < R := by
      rcases hn with h | h
      · omega
      · exact h
    obtain ⟨acc', h1, h2, h3, h4⟩ := ih (Or.inr hR)
      { acc with g :=
        { float64 := fun n => acc.g.float64 (n + 1)
          intn := fun k => acc.g.intn (k + 1)
          norm := acc.g.norm } } (fun k => hb (k + 1))
    refine ⟨acc', ?_, h2, h3, h4⟩
    simp only [wheel, wheelRep_beta_nonpos pf fuel R hR acc (hb 0), bind, Except.bind]
    exact h1

/-- When every drawn `beta` is not positive (`MaxWeight` is `0`, or every
`rand.Float64()` is `0`), `ResampleAndFuzz` completes with a population of the
fresh particles only and the estimate `0 / numIntResample`. -/
theorem ResampleAndFuzz_beta_nonpos [FloorRing F] (fuel : Nat) (pf : ParticleFilter F)
    (g : Rng F) (hb : ∀ k, g.float64 k * pf.MaxWeight * 2 ≤ 0) :
    ∃ r, ResampleAndFuzz fuel pf g = .ok r ∧
      r.1.ListParticles.length = (pf.NumSamples - numIntResample pf).toNat ∧
      r.1.EstimatedX = 0 ∧ r.1.EstimatedY = 0 := by
  have hz : (0.0 : F) = 0 := by norm_num
  have hn : (numIntResample pf).toNat = 0 ∨ 0 < numIntResample pf := by omega
  obtain ⟨acc, hacc, hl, hx, hy⟩ := wheel_beta_nonpos { pf with iteration := pf.iteration + 1 }
    fuel (numIntResample pf) (numIntResample pf).toNat hn ⟨g, [], 0, 0⟩ hb
  have hnum : numIntResample { pf with iteration := pf.iteration + 1 } = numIntResample pf := rfl
  simp only at hl hx hy
  unfold ResampleAndFuzz
  simp only [hnum, hz, hacc, bind, Except.bind, pure, Except.pure]
  refine ⟨_, rfl, ?_, ?_, ?_⟩
  · simp only [hl]
    rw [(appendFresh_fst _ _ [] _).2]
  · simp [hx]
  · simp [hy]

end NoAccept

section Tie

variable {F : Type} [LinearOrderedField F]

/-- A walk that meets, as its first particle, one whose weight equals `beta`
ends without accepting anything. -/
theorem wheelWalk_tie (pf : ParticleFilter F) (fuel : Nat) (beta : F) (idx : Int)
    (acc : WheelAcc F) (p : Particle F) (hp : index pf.ListParticles idx = .ok p)
    (hw : p.Weight = beta) (hb : beta > 0) (hN : pf.NumSamples ≠ 0) :
    wheelWalk pf (fuel + 1) beta idx acc = .ok acc := by
  unfold wheelWalk
  have hnot : ¬ p.Weight > beta := by rw [hw]; exact lt_irrefl _
  simp only [hb, if_true, hp, bind, Except.bind, hnot, if_false, hN]
  exact wheelWalk_stop pf fuel _ _ _ (by rw [hw]; simp)

end Tie

theorem scoredPF_scored : Scored scoredPF where
  pos := by simp [scoredPF, samplePF]
  len := by simp [scoredPF, samplePF]
  nonneg := by
    intro p hp
    simp only [scoredPF, samplePF, List.mem_cons, List.mem_singleton, List.not_mem_nil,
      or_false] at hp
    rcases hp with rfl | rfl <;> norm_num
  frac := by simp [scoredPF, samplePF]
  maxW := Or.inr ⟨⟨2, 2, 1⟩, by simp [scoredPF, samplePF], by simp [scoredPF, samplePF]⟩

theorem constRng_valid : (constRng (1 / 2) 0 0).Valid := by
  intro n
  simp only [constRng]
  norm_num

section ResampleClaims

/-- C7 (evaluation at a failing input): from a state with `NumSamples = 2`
particles, `PercentResample = 1`, `Sigma = 1/2` and positive bounds, one step
on an observation over the registered anchors, with every `rand.Float64()`
equal to `0`, completes with an empty population. -/
theorem step_population_not_preserved :
    (realPF.ListParticles.length : Int) = realPF.NumSamples ∧ zeroRng.Valid ∧
    ∃ r, step realMath 4 realPF realObs zeroRng = .ok r ∧
      r.1.NumSamples = 2 ∧ r.1.ListParticles.length = 0 := by
  refine ⟨by simp [realPF], fun n => by simp [zeroRng], ?_⟩
  unfold step
  rw [CalculateWeights_ok realMath realPF realObs realPos realObs_registered]
  simp only [bind, Except.bind]
  obtain ⟨r, hr, hlen, -, -⟩ := ResampleAndFuzz_beta_nonpos 4
    { realPF with
      MaxWeight := (realPF.ListParticles.map (particleWeight realMath realPF realPos realObs)).foldl
        max 0
      ListParticles := realPF.ListParticles.map
        (fun p => p.UpdateWeight (particleWeight realMath realPF realPos realObs p)) }
    zeroRng (fun k => by simp [zeroRng])
  refine ⟨r, hr, ?_, ?_⟩
  · obtain ⟨acc, -, -, -, -, -, -, hN⟩ := ResampleAndFuzz_result 4 _ r.1 zeroRng r.2 hr
    rw [hN]
    rfl
  · rw [hlen]
    simp [numIntResample, toInt, realPF]

/-- C8 (evaluation at a failing input): a population of `NumSamples = 1`
particle scored by `CalculateWeights` (on the empty observation, weight `1`),
with `rand.Float64()` equal to `0.5`, makes `beta` equal to the weight of the
particle met, and the single repetition of the wheel appends no particle. -/
theorem wheel_repetition_appends_nothing :
    ∃ pf1, CalculateWeights realMath onePF [] = .ok pf1 ∧
      (pf1.ListParticles.length : Int) = pf1.NumSamples ∧ numIntResample pf1 = 1 ∧
      wheel pf1 2 1 1 ⟨halfRng, [], 0, 0⟩ =
        .ok ⟨⟨fun _ => 1 / 2, fun _ => 0, fun _ => 0⟩, [], 0, 0⟩ := by
  have h1 : (1.0 : ℝ) = 1 := by norm_num
  refine ⟨_, CalculateWeights_ok realMath onePF [] realPos (by simp), ?_, ?_, ?_⟩
  · simp [onePF]
  · simp [numIntResample, toInt, onePF]
  · simp only [wheel, wheelRep, Rng.Intn, Rng.Float64, halfRng, bind, Except.bind]
    have hlt : ¬ ((1 : Int) ≤ 0) := by decide
    simp only [hlt, if_false]
    rw [wheelWalk_tie _ 1 _ _ _ ⟨1, 1, 1⟩]
    · simp [index, onePF, Particle.UpdateWeight, particleWeight, h1]
    · simp [onePF, particleWeight, h1]
    · simp [onePF, particleWeight, h1]
    · simp [onePF]

/-- C9 (evaluation at a failing input): with `MaxWeight = 0`, two particles of
weight `0` and `NumSamples = 2`, `PercentResample = 1`, `ResampleAndFuzz`
completes with an empty population and the estimate `(0, 0)`: neither of the
two repetitions accepts the particle at its start index. -/
theorem zero_maxWeight_accepts_nothing :
    zeroWeightPF.MaxWeight = 0 ∧ numIntResample zeroWeightPF = 2 ∧
    ∃ r, ResampleAndFuzz 4 zeroWeightPF (constRng (1 / 2) 0 0) = .ok r ∧
      r.1.ListParticles.length = 0 ∧ r.1.EstimatedX = 0 ∧ r.1.EstimatedY = 0 := by
  have hR : numIntResample zeroWeightPF = 2 := by
    simp [numIntResample, toInt, zeroWeightPF, samplePF]
  refine ⟨rfl, hR, ?_⟩
  obtain ⟨r, hr, hlen, hx, hy⟩ := ResampleAndFuzz_beta_nonpos 4 zeroWeightPF
    (constRng (1 / 2) 0 0) (fun k => by simp [zeroWeightPF, samplePF])
  refine ⟨r, hr, ?_, hx, hy⟩
  rw [hlen, hR]
  rfl

/-- C10: every completed `ResampleAndFuzz` with resample count
`R = numIntResample > 0` leaves `EstimatedX` (`EstimatedY`) equal to the sum of
the `X` (`Y`) coordinates of the particles the wheel appended, divided by `R`,
(a division by a positive number) and a population made of those particles
followed by `NumSamples - R` fresh ones; and on a scored state with valid random draws the
call completes when each walk has fuel for two laps. -/
theorem estimate_is_mean_of_resampled {F : Type} [LinearOrderedField F] [FloorRing F]
    (fuel : Nat) (pf : ParticleFilter F) (g : Rng F) (hR : 0 < numIntResample pf) :
    (0 : F) < ((numIntResample pf : Int) : F) ∧
    (∀ pf' g', ResampleAndFuzz fuel pf g = .ok (pf', g') →
      ∃ (acc : WheelAcc F) (fresh : List (Particle F)),
        wheel { pf with iteration := pf.iteration + 1 } fuel (numIntResample pf)
          (numIntResample pf).toNat ⟨g, [], 0, 0⟩ = .ok acc ∧
        pf'.ListParticles = acc.newParticleList ++ fresh ∧
        fresh.length = (pf.NumSamples - numIntResample pf).toNat ∧
        pf'.EstimatedX = (acc.newParticleList.map (fun p => p.X)).sum
          / ((numIntResample pf : Int) : F) ∧
        pf'.EstimatedY = (acc.newParticleList.map (fun p => p.Y)).sum
          / ((numIntResample pf : Int) : F)) ∧
    (Scored pf → g.Valid → 2 * pf.NumSamples.toNat ≤ fuel →
      ∃ r, ResampleAndFuzz fuel pf g = .ok r) := by
  refine ⟨by exact_mod_cast hR, ?_, fun hS hv hf => ResampleAndFuzz_total pf hS g hv fuel hf⟩
  intro pf' g' h
  obtain ⟨acc, hw, hx, hy, hl, -, -, -⟩ := ResampleAndFuzz_result fuel pf pf' g g' h
  have hs := wheel_sums _ fuel _ _ ⟨g, [], 0, 0⟩ acc hw (by simp [WheelAcc.Sums])
  refine ⟨acc, _, hw, hl, (appendFresh_fst _ _ [] _).2, ?_, ?_⟩
  · rw [hx, hs.1]
  · rw [hy, hs.2]

/-- C10, at a scored state over the rationals with two particles. -/
theorem estimate_is_mean_of_resampled_witness :
    0 < numIntResample scoredPF ∧
    ∃ r, ResampleAndFuzz 4 scoredPF (constRng (1 / 2) 0 0) = .ok r ∧
      ∃ (acc : WheelAcc ℚ) (fresh : List (Particle ℚ)),
        r.1.ListParticles = acc.newParticleList ++ fresh ∧
        r.1.EstimatedX = (acc.newParticleList.map (fun p => p.X)).sum
          / ((numIntResample scoredPF : Int) : ℚ) := by
  have hR : 0 < numIntResample scoredPF := by
    simp [numIntResample, toInt, scoredPF, samplePF]
  have hthm := estimate_is_mean_of_resampled 4 scoredPF (constRng (1 / 2) 0 0) hR
  obtain ⟨r, hr⟩ := hthm.2.2 scoredPF_scored constRng_valid (by simp [scoredPF, samplePF])
  obtain ⟨acc, fresh, -, hl, -, hx, -⟩ := hthm.2.1 r.1 r.2 hr
  exact ⟨hR, r, hr, acc, fresh, hl, hx⟩

end ResampleClaims

/-! ## Facts about `CreatePF` -/

section CreateFacts

variable {F : Type} [LinearOrderedField F]

theorem createParticle_valid (pf : ParticleFilter F) (g : Rng F) (hv : g.Valid) :
    (createParticle pf g).2.Valid := fun n => hv (n + 1 + 1)

theorem createParticle_bounds (pf : ParticleFilter F) (g : Rng F) (hv : g.Valid)
    (hx : 0 ≤ pf.XLimit) (hy : 0 ≤ pf.YLimit) :
    (0 ≤ (createParticle pf g).1.X ∧ (createParticle pf g).1.X ≤ pf.XLimit) ∧
    (0 ≤ (createParticle pf g).1.Y ∧ (createParticle pf g).1.Y ≤ pf.YLimit) ∧
    (createParticle pf g).1.Weight = 0 := by
  have h0 := hv 0
  have h1 := hv 1
  simp only [createParticle, Rng.Float64]
  refine ⟨⟨mul_nonneg h0.1 hx, ?_⟩, ⟨mul_nonneg h1.1 hy, ?_⟩, trivial⟩
  · calc g.float64 0 * pf.XLimit ≤ 1 * pf.XLimit :=
          mul_le_mul_of_nonneg_right (le_of_lt h0.2) hx
      _ = pf.XLimit := one_mul _
  · calc g.float64 (0 + 1) * pf.YLimit ≤ 1 * pf.YLimit :=
          mul_le_mul_of_nonneg_right (le_of_lt h1.2) hy
      _ = pf.YLimit := one_mul _

/-- Every particle the loop of `createParticle` calls appends lies within the
limits and has weight `0`. -/
theorem appendFresh_bounds (pf : ParticleFilter F) (hx : 0 ≤ pf.XLimit) (hy : 0 ≤ pf.YLimit)
    (n : Nat) (g : Rng F) (hv : g.Valid) :
    ∀ p ∈ (appendFresh pf n [] g).1,
      (0 ≤ p.X ∧ p.X ≤ pf.XLimit) ∧ (0 ≤ p.Y ∧ p.Y ≤ pf.YLimit) ∧ p.Weight = 0 := by
  induction n generalizing g with
  | zero => intro p hp; simp [appendFresh] at hp
  | succ n ih =>
    intro p hp
    simp only [appendFresh, List.nil_append] at hp
    rw [(appendFresh_fst pf n [(createParticle pf g).1] (createParticle pf g).2).1] at hp
    rcases List.mem_append.mp hp with h | h
    · simp only [List.mem_singleton] at h
      subst h
      exact createParticle_bounds pf g hv hx hy
    · exact ih _ (createParticle_valid pf g hv) p h

/-- The fields of the state `CreatePF` returns. -/
theorem CreatePF_fields (numSamps : Int) (percResamp sigma xLimit yLimit : F) (g : Rng F) :
    (CreatePF numSamps percResamp sigma xLimit yLimit g).1 =
      { NumSamples := numSamps, PercentResample := percResamp,
        ListParticles := (appendFresh
          { NumSamples := numSamps, PercentResample := percResamp, ListParticles := [],
            Sigma := sigma, XLimit := xLimit, YLimit := yLimit,
            Anchors := [("A9CF", [0, 3.04]), ("F95B", [0, 0])],
            EstimatedX := 0, EstimatedY := 0, MaxWeight := 0, iteration := 0,
            printIter := true } numSamps.toNat [] g).1,
        Sigma := sigma, XLimit := xLimit, YLimit := yLimit,
        Anchors := [("A9CF", [0, 3.04]), ("F95B", [0, 0])],
        EstimatedX := 0, EstimatedY := 0, MaxWeight := 0, iteration := 0,
        printIter := true } := by
  have hz : (0.0 : F) = 0 := by norm_num
  simp only [CreatePF, createSampleList, hz]

end CreateFacts

section CreateClaims

/-- C11 (as the code behaves): `CreatePF` validates nothing and cannot fail:
for all arguments it returns a state that holds them as given, with the two
anchors, `MaxWeight = 0`, iteration `0` and `max(numSamps, 0)` particles. -/
theorem CreatePF_never_rejects {F : Type} [LinearOrderedField F] (numSamps : Int)
    (percResamp sigma xLimit yLimit : F) (g : Rng F) :
    (CreatePF numSamps percResamp sigma xLimit yLimit g).1.NumSamples = numSamps ∧
    (CreatePF numSamps percResamp sigma xLimit yLimit g).1.PercentResample = percResamp ∧
    (CreatePF numSamps percResamp sigma xLimit yLimit g).1.Sigma = sigma ∧
    (CreatePF numSamps percResamp sigma xLimit yLimit g).1.XLimit = xLimit ∧
    (CreatePF numSamps percResamp sigma xLimit yLimit g).1.YLimit = yLimit ∧
    (CreatePF numSamps percResamp sigma xLimit yLimit g).1.Anchors
      = [("A9CF", [0, 3.04]), ("F95B", [0, 0])] ∧
    (CreatePF numSamps percResamp sigma xLimit yLimit g).1.MaxWeight = 0 ∧
    (CreatePF numSamps percResamp sigma xLimit yLimit g).1.iteration = 0 ∧
    (CreatePF numSamps percResamp sigma xLimit yLimit g).1.ListParticles.length
      = numSamps.toNat := by
  rw [CreatePF_fields]
  refine ⟨rfl, rfl, rfl, rfl, rfl, rfl, rfl, rfl, ?_⟩
  exact (appendFresh_fst _ _ [] _).2

/-- C11 (the claim fails): with `numSamps = 0`, `percResamp = 2` and
`sigma = 0`, `CreatePF` returns a state, with those values, no particle, and
resample count `0`. -/
theorem CreatePF_accepts_invalid :
    (CreatePF 0 2 0 5 5 (constRng (1 / 2) 0 0)).1.NumSamples = 0 ∧
    (CreatePF 0 2 0 5 5 (constRng (1 / 2) 0 0)).1.PercentResample = 2 ∧
    (CreatePF 0 2 0 5 5 (constRng (1 / 2) 0 0)).1.Sigma = 0 ∧
    (CreatePF 0 2 0 5 5 (constRng (1 / 2) 0 0)).1.ListParticles = [] ∧
    numIntResample (CreatePF 0 2 0 5 5 (constRng (1 / 2) 0 0)).1 = 0 := by
  rw [CreatePF_fields]
  refine ⟨rfl, rfl, rfl, rfl, ?_⟩
  simp [numIntResample, toInt]

/-- C12: for `numSamps > 0`, positive limits and `rand.Float64()` results in
`[0, 1)`, `CreatePF` returns a state with exactly `numSamps` particles, each
with `0 <= X <= xLimit`, `0 <= Y <= yLimit` and `Weight = 0`, and with
`MaxWeight = 0` and iteration `0`. -/
theorem CreatePF_population {F : Type} [LinearOrderedField F] (numSamps : Int)
    (percResamp sigma xLimit yLimit : F) (g : Rng F)
    (hN : 0 < numSamps) (hx : 0 < xLimit) (hy : 0 < yLimit) (hv : g.Valid) :
    ((CreatePF numSamps percResamp sigma xLimit yLimit g).1.ListParticles.length : Int)
      = numSamps ∧
    (∀ p ∈ (CreatePF numSamps percResamp sigma xLimit yLimit g).1.ListParticles,
      (0 ≤ p.X ∧ p.X ≤ xLimit) ∧ (0 ≤ p.Y ∧ p.Y ≤ yLimit) ∧ p.Weight = 0) ∧
    (CreatePF numSamps percResamp sigma xLimit yLimit g).1.MaxWeight = 0 ∧
    (CreatePF numSamps percResamp sigma xLimit yLimit g).1.iteration = 0 := by
  rw [CreatePF_fields]
  refine ⟨?_, ?_, rfl, rfl⟩
  · simp only
    rw [(appendFresh_fst _ _ [] _).2]
    omega
  · exact appendFresh_bounds _ (le_of_lt hx) (le_of_lt hy) _ g hv

/-- C12, at the configuration of `main.go` over the rationals. -/
theorem CreatePF_population_witness :
    ((CreatePF 100 (9 / 10 : ℚ) (1 / 2) 5 5 (constRng (1 / 2) 0 0)).1.ListParticles.length : Int)
      = 100 ∧
    (∀ p ∈ (CreatePF 100 (9 / 10 : ℚ) (1 / 2) 5 5 (constRng (1 / 2) 0 0)).1.ListParticles,
      (0 ≤ p.X ∧ p.X ≤ 5) ∧ (0 ≤ p.Y ∧ p.Y ≤ 5) ∧ p.Weight = 0) ∧
    (CreatePF 100 (9 / 10 : ℚ) (1 / 2) 5 5 (constRng (1 / 2) 0 0)).1.MaxWeight = 0 ∧
    (CreatePF 100 (9 / 10 : ℚ) (1 / 2) 5 5 (constRng (1 / 2) 0 0)).1.iteration = 0 :=
  CreatePF_population 100 (9 / 10) (1 / 2) 5 5 (constRng (1 / 2) 0 0)
    (by decide) (by norm_num) (by norm_num) constRng_valid

end CreateClaims

/-! ## Frame and failure of `CalculateWeights` -/

section LookupFacts

variable {F : Type} [LinearOrderedField F]

theorem index_error {α : Type} (l : List α) (i : Int) (e : Fault) (h : index l i = .error e) :
    e = .indexOutOfRange := by
  unfold index at h
  split at h
  · simpa using h.symm
  · split at h
    · simp at h
    · simpa using h.symm

theorem readingWeight_error (M : MathOps F) (pf : ParticleFilter F) (p : Particle F)
    (r : Reading F) (e : Fault) (h : readingWeight M pf p r = .error e) :
    e = .indexOutOfRange := by
  unfold readingWeight at h
  simp only [bind, Except.bind] at h
  cases h0 : index (mapGet pf.Anchors r.Anchor) 0 with
  | error e0 =>
    rw [h0] at h
    simp only [Except.error.injEq] at h
    subst h
    exact index_error _ _ _ h0
  | ok a0 =>
    rw [h0] at h
    simp only at h
    cases h1 : index (mapGet pf.Anchors r.Anchor) 1 with
    | error e1 =>
      rw [h1] at h
      simp only [Except.error.injEq] at h
      subst h
      exact index_error _ _ _ h1
    | ok a1 => rw [h1] at h; simp [pure, Except.pure] at h

theorem readingWeight_unregistered (M : MathOps F) (pf : ParticleFilter F) (p : Particle F)
    (r : Reading F) (h : pf.Anchors.lookup r.Anchor = none) :
    readingWeight M pf p r = .error .indexOutOfRange := by
  simp [readingWeight, mapGet, h, index, bind, Except.bind]

theorem readingWeights_unregistered (M : MathOps F) (pf : ParticleFilter F) (p : Particle F)
    (rs : List (Reading F)) (weights : List F)
    (h : ∃ r ∈ rs, pf.Anchors.lookup r.Anchor = none) :
    readingWeights M pf p rs weights = .error .indexOutOfRange := by
  induction rs generalizing weights with
  | nil => simp at h
  | cons r rs ih =>
    simp only [readingWeights, bind, Except.bind]
    cases hr : readingWeight M pf p r with
    | error e => rw [readingWeight_error M pf p r e hr]
    | ok w =>
      simp only
      apply ih
      obtain ⟨x, hx, hxl⟩ := h
      rcases List.mem_cons.mp hx with rfl | hx
      · rw [readingWeight_unregistered M pf p x hxl] at hr
        simp at hr
      · exact ⟨x, hx, hxl⟩

theorem CalculateWeights_unregistered (M : MathOps F) (pf : ParticleFilter F)
    (rs : List (Reading F)) (hne : pf.ListParticles ≠ [])
    (h : ∃ r ∈ rs, pf.Anchors.lookup r.Anchor = none) :
    CalculateWeights M pf rs = .error .indexOutOfRange := by
  unfold CalculateWeights
  simp only [checkAndSetMaxWeight_true, bind, Except.bind]
  cases hl : pf.ListParticles with
  | nil => exact absurd hl hne
  | cons p ps =>
    simp only [weighParticles, bind, Except.bind]
    rw [readingWeights_unregistered M
      { pf with MaxWeight := (0.0 : F), ListParticles := p :: ps } p rs [] h]

theorem CalculateWeights_empty (M : MathOps F) (pf : ParticleFilter F)
    (rs : List (Reading F)) (he : pf.ListParticles = []) :
    ∃ pf', CalculateWeights M pf rs = .ok pf' := by
  unfold CalculateWeights
  simp only [checkAndSetMaxWeight_true, bind, Except.bind, he, weighParticles, pure,
    Except.pure]
  exact ⟨_, rfl⟩

/-- In a registry whose slices all have two coordinates, every key has a position. -/
theorem anchorPos_of_key {F : Type} (anchors : List (String × List F)) (a : String)
    (hwf : ∀ kv ∈ anchors, 2 ≤ kv.2.length) (h : anchors.lookup a ≠ none) :
    ∃ q, anchorPos anchors a = some q := by
  cases hl : anchors.lookup a with
  | none => exact absurd hl h
  | some v =>
    have hmem : ∃ k, (k, v) ∈ anchors := by
      clear hwf h
      induction anchors with
      | nil => simp [List.lookup] at hl
      | cons kv rest ih =>
        obtain ⟨k, w⟩ := kv
        simp only [List.lookup] at hl
        split at hl
        · simp only [Option.some.injEq] at hl
          subst hl
          exact ⟨k, by simp⟩
        · obtain ⟨k2, hk2⟩ := ih hl
          exact ⟨k2, by simp [hk2]⟩
    obtain ⟨k, hk⟩ := hmem
    have hlen := hwf (k, v) hk
    simp only [anchorPos, mapGet, hl, Option.getD_some]
    match v, hlen with
    | a0 :: a1 :: rest, _ => exact ⟨(a0, a1), rfl⟩

end LookupFacts

section EmittedAnchors

variable {F : Type} [LinearOrderedField F]

/-- From buffers that hold readings of their own anchor only, every
observation sent is a reading for A9CF followed by a reading for F95B. -/
theorem ingestAll_emitted_anchors (s : Aggregator F) (rs : List (Reading F))
    (h1 : ∀ x ∈ s.anch1, x.Anchor = "A9CF") (h2 : ∀ x ∈ s.anch2, x.Anchor = "F95B") :
    ∀ obs ∈ (ingestAll s rs).2, ∃ d1 d2 : F, obs = [⟨"A9CF", d1⟩, ⟨"F95B", d2⟩] := by
  induction rs generalizing s with
  | nil => intro obs hobs; simp [ingestAll] at hobs
  | cons r rs ih =>
    have hb1 : ∀ x ∈ (buffer s r).anch1, x.Anchor = "A9CF" := by
      intro x hx
      rw [buffer_anch1] at hx
      rcases List.mem_append.mp hx with h | h
      · exact h1 x h
      · simpa using (List.mem_filter.mp h).2
    have hb2 : ∀ x ∈ (buffer s r).anch2, x.Anchor = "F95B" := by
      intro x hx
      rw [buffer_anch2] at hx
      rcases List.mem_append.mp hx with h | h
      · exact h2 x h
      · simpa using (List.mem_filter.mp h).2
    intro obs hobs
    simp only [ingestAll] at hobs
    by_cases hr : 5 ≤ (buffer s r).anch1.length ∧ 5 ≤ (buffer s r).anch2.length
    · obtain ⟨a, l1, b, l2, ha, hb, e⟩ := ingest_ready s r hr
      rw [e] at hobs
      simp only [Option.toList, List.singleton_append, List.mem_cons] at hobs
      rcases hobs with rfl | hobs
      · have hA : a.Anchor = "A9CF" := hb1 a (by rw [ha]; simp)
        have hB : b.Anchor = "F95B" := hb2 b (by rw [hb]; simp)
        rw [hA, hB]
        exact ⟨_, _, rfl⟩
      · exact ih Aggregator.empty (by simp [Aggregator.empty]) (by simp [Aggregator.empty])
          obs hobs
    · rw [ingest_not_ready s r hr] at hobs
      simp only [Option.toList, List.nil_append] at hobs
      exact ih (buffer s r) hb1 hb2 obs hobs

end EmittedAnchors

section FrameClaims

variable {F : Type} [LinearOrderedField F]

/-- C13: on an observation whose readings name anchors with a registered
position, `CalculateWeights` completes and changes only the weights and
`MaxWeight`: the particles are as many, in the same order, at the same `X` and
`Y`, and every other field of the state is as before. -/
theorem calculateWeights_frame (M : MathOps F) (pf : ParticleFilter F)
    (rs : List (Reading F)) (pos : String → F × F)
    (hreg : ∀ r ∈ rs, anchorPos pf.Anchors r.Anchor = some (pos r.Anchor)) :
    ∃ pf', CalculateWeights M pf rs = .ok pf' ∧
      pf'.ListParticles.length = pf.ListParticles.length ∧
      pf'.ListParticles.map (fun p => (p.X, p.Y)) = pf.ListParticles.map (fun p => (p.X, p.Y)) ∧
      pf'.NumSamples = pf.NumSamples ∧ pf'.PercentResample = pf.PercentResample ∧
      pf'.Sigma = pf.Sigma ∧ pf'.XLimit = pf.XLimit ∧ pf'.YLimit = pf.YLimit ∧
      pf'.Anchors = pf.Anchors ∧ pf'.EstimatedX = pf.EstimatedX ∧
      pf'.EstimatedY = pf.EstimatedY ∧ pf'.iteration = pf.iteration ∧
      pf'.printIter = pf.printIter := by
  refine ⟨_, CalculateWeights_ok M pf rs pos hreg, ?_, ?_, rfl, rfl, rfl, rfl, rfl, rfl, rfl,
    rfl, rfl, rfl⟩
  · simp
  · simp [Particle.UpdateWeight, Function.comp]

/-- C14: in a registry whose slices all hold two coordinates, `CalculateWeights`
fails exactly when the population is non-empty and some reading names an anchor
that is not a key of the registry, and then by an index out of range on the
nil slice the lookup returns; it completes when every reading names a key, and
so on every observation the aggregator sends when A9CF and F95B are keys. -/
theorem calculateWeights_fails_iff (M : MathOps F) (pf : ParticleFilter F)
    (rs : List (Reading F)) (hwf : ∀ kv ∈ pf.Anchors, 2 ≤ kv.2.length) :
    ((∃ e, CalculateWeights M pf rs = .error e) ↔
      (pf.ListParticles ≠ [] ∧ ∃ r ∈ rs, pf.Anchors.lookup r.Anchor = none)) ∧
    ((pf.ListParticles ≠ [] ∧ ∃ r ∈ rs, pf.Anchors.lookup r.Anchor = none) →
      CalculateWeights M pf rs = .error .indexOutOfRange) ∧
    ((∀ r ∈ rs, pf.Anchors.lookup r.Anchor ≠ none) →
      ∃ pf', CalculateWeights M pf rs = .ok pf') ∧
    (pf.Anchors.lookup "A9CF" ≠ none → pf.Anchors.lookup "F95B" ≠ none →
      ∀ (rs0 : List (Reading F)) (obs : List (Reading F)),
        obs ∈ (ingestAll (Aggregator.empty : Aggregator F) rs0).2 →
        ∃ pf', CalculateWeights M pf obs = .ok pf') := by
  have hok : ∀ obs : List (Reading F), (∀ r ∈ obs, pf.Anchors.lookup r.Anchor ≠ none) →
      ∃ pf', CalculateWeights M pf obs = .ok pf' := by
    intro obs hall
    refine ⟨_, CalculateWeights_ok M pf obs
      (fun a => (anchorPos pf.Anchors a).getD (0, 0)) ?_⟩
    intro r hr
    obtain ⟨q, hq⟩ := anchorPos_of_key pf.Anchors r.Anchor hwf (hall r hr)
    simp only [hq, Option.getD_some]
  refine ⟨⟨?_, ?_⟩, ?_, hok rs, ?_⟩
  · rintro ⟨e, he⟩
    by_contra hcon
    by_cases hempty : pf.ListParticles = []
    · obtain ⟨pf', hpf'⟩ := CalculateWeights_empty M pf rs hempty
      rw [hpf'] at he
      simp at he
    · have hall : ∀ r ∈ rs, pf.Anchors.lookup r.Anchor ≠ none := by
        intro r hr hnone
        exact hcon ⟨hempty, r, hr, hnone⟩
      obtain ⟨pf', hpf'⟩ := hok rs hall
      rw [hpf'] at he
      simp at he
  · rintro ⟨hne, hex⟩
    exact ⟨_, CalculateWeights_unregistered M pf rs hne hex⟩
  · rintro ⟨hne, hex⟩
    exact CalculateWeights_unregistered M pf rs hne hex
  · intro hA hB rs0 obs hobs
    obtain ⟨d1, d2, rfl⟩ := ingestAll_emitted_anchors Aggregator.empty rs0
      (by simp [Aggregator.empty]) (by simp [Aggregator.empty]) obs hobs
    apply hok
    intro r hr
    simp only [List.mem_cons, List.mem_singleton, List.not_mem_nil, or_false] at hr
    rcases hr with rfl | rfl
    · exact hA
    · exact hB

end FrameClaims

/-- C13, at a state with two particles and one reading per anchor. -/
theorem calculateWeights_frame_witness :
    ∃ pf', CalculateWeights realMath realPF realObs = .ok pf' ∧
      pf'.ListParticles.map (fun p => (p.X, p.Y)) = [(1, 1), (2, 3)] ∧
      pf'.NumSamples = 2 ∧ pf'.iteration = 0 := by
  obtain ⟨pf', h, -, hxy, hN, -, -, -, -, -, -, -, hit, -⟩ :=
    calculateWeights_frame realMath realPF realObs realPos realObs_registered
  exact ⟨pf', h, by simpa [realPF] using hxy, hN, hit⟩

/-- C14, at the registry of `CreatePF` with a reading for an unknown anchor. -/
theorem calculateWeights_fails_iff_witness :
    CalculateWeights realMath realPF [⟨"A9CF", 2⟩, ⟨"0000", 1⟩] = .error .indexOutOfRange ∧
    ∃ pf', CalculateWeights realMath realPF realObs = .ok pf' := by
  have hwf : ∀ kv ∈ realPF.Anchors, 2 ≤ kv.2.length := by
    intro kv hkv
    simp only [realPF, List.mem_cons, List.mem_singleton, List.not_mem_nil, or_false] at hkv
    rcases hkv with rfl | rfl <;> simp
  refine ⟨(calculateWeights_fails_iff realMath realPF _ hwf).2.1
      ⟨by simp [realPF], ⟨"0000", 1⟩, by simp, by simp [realPF, List.lookup]⟩,
    (calculateWeights_fails_iff realMath realPF realObs hwf).2.2.1 ?_⟩
  intro r hr
  simp only [realObs, List.mem_cons, List.mem_singleton, List.not_mem_nil, or_false] at hr
  rcases hr with rfl | rfl <;> simp [realPF, List.lookup]

/-! ## What a repetition of the wheel appends -/

section WalkSteps

variable {F : Type} [LinearOrderedField F]

theorem wheelWalk_accept (pf : ParticleFilter F) (fuel : Nat) (beta : F) (idx : Int)
    (acc : WheelAcc F) (p : Particle F) (hp : index pf.ListParticles idx = .ok p)
    (hb : beta > 0) (hw : p.Weight > beta) (hN : pf.NumSamples ≠ 0) :
    wheelWalk pf (fuel + 1) beta idx acc = .ok (accept p acc) := by
  unfold wheelWalk
  simp only [hb, if_true, hp, bind, Except.bind, hw, hN, if_false]
  exact wheelWalk_stop pf fuel _ _ _ (not_lt.mpr (le_of_lt (sub_neg.mpr hw)))

theorem wheelWalk_skip (pf : ParticleFilter F) (fuel : Nat) (beta : F) (idx : Int)
    (acc : WheelAcc F) (p : Particle F) (hp : index pf.ListParticles idx = .ok p)
    (hb : beta > 0) (hw : ¬ p.Weight > beta) (hN : pf.NumSamples ≠ 0) :
    wheelWalk pf (fuel + 1) beta idx acc =
      wheelWalk pf fuel (beta - p.Weight) ((idx + 1).tmod pf.NumSamples) acc := by
  conv_lhs => unfold wheelWalk
  simp only [hb, if_true, hp, bind, Except.bind, hw, hN, if_false]

theorem wheelWalk_oob (pf : ParticleFilter F) (fuel : Nat) (beta : F) (idx : Int)
    (acc : WheelAcc F) (e : Fault) (hp : index pf.ListParticles idx = .error e)
    (hb : beta > 0) : wheelWalk pf (fuel + 1) beta idx acc = .error e := by
  unfold wheelWalk
  simp only [hb, if_true, hp, bind, Except.bind]

theorem accept_newParticleList (p : Particle F) (acc : WheelAcc F) :
    (accept p acc).newParticleList =
      acc.newParticleList ++ [⟨p.X + acc.g.norm 0, p.Y + acc.g.norm 1, 0⟩] := by
  simp [accept, Rng.NormRand]

theorem accept_ne (p : Particle F) (acc : WheelAcc F) :
    (accept p acc).newParticleList ≠ acc.newParticleList := by
  rw [accept_newParticleList]
  intro h
  have := congrArg List.length h
  simp at this

/-- A walk that appends a particle took it from the first particle, on the
circle from `idx`, whose weight exceeds the `beta` that remains. -/
theorem wheelWalk_source (pf : ParticleFilter F) (fuel : Nat) (beta : F) (idx : Int)
    (acc acc' : WheelAcc F) (h : wheelWalk pf fuel beta idx acc = .ok acc')
    (happ : acc'.newParticleList ≠ acc.newParticleList) :
    ∃ (k : Nat) (p : Particle F),
      index pf.ListParticles (walkPos pf.NumSamples k idx) = .ok p ∧
      (∀ t, t < k → ∃ q, index pf.ListParticles (walkPos pf.NumSamples t idx) = .ok q ∧
        q.Weight ≤ remainingBeta pf.ListParticles pf.NumSamples t beta idx) ∧
      0 < remainingBeta pf.ListParticles pf.NumSamples k beta idx ∧
      remainingBeta pf.ListParticles pf.NumSamples k beta idx < p.Weight ∧
      acc' = accept p acc := by
  induction fuel generalizing beta idx with
  | zero =>
    unfold wheelWalk at h
    split at h
    · simp at h
    · simp only [Except.ok.injEq] at h
      subst h
      exact absurd rfl happ
  | succ fuel ih =>
    by_cases hb : beta > 0
    · cases hp : index pf.ListParticles idx with
      | error e => rw [wheelWalk_oob pf fuel beta idx acc e hp hb] at h; simp at h
      | ok p0 =>
        by_cases hN : pf.NumSamples = 0
        · unfold wheelWalk at h
          simp [hb, hp, hN, bind, Except.bind] at h
        · by_cases hw : p0.Weight > beta
          · rw [wheelWalk_accept pf fuel beta idx acc p0 hp hb hw hN] at h
            simp only [Except.ok.injEq] at h
            exact ⟨0, p0, hp, fun t ht => absurd ht (Nat.not_lt_zero t), hb, hw, h.symm⟩
          · rw [wheelWalk_skip pf fuel beta idx acc p0 hp hb hw hN] at h
            obtain ⟨k, p, hk, hpast, hpos, hlt, hacc⟩ := ih _ _ h
            have hwp : weightOfPos pf.ListParticles idx = p0.Weight := by
              simp [weightOfPos, hp]
            refine ⟨k + 1, p, hk, ?_, ?_, ?_, hacc⟩
            · intro t ht
              cases t with
              | zero => exact ⟨p0, hp, not_lt.mp hw⟩
              | succ s =>
                obtain ⟨q, hq, hqw⟩ := hpast s (by omega)
                exact ⟨q, hq, by simpa only [remainingBeta, hwp] using hqw⟩
            · simpa only [remainingBeta, hwp] using hpos
            · simpa only [remainingBeta, hwp] using hlt
    · rw [wheelWalk_stop pf _ beta idx acc hb] at h
      simp only [Except.ok.injEq] at h
      subst h
      exact absurd rfl happ

theorem wheelRep_unfold (pf : ParticleFilter F) (fuel : Nat) (R : Int) (hR : 0 < R)
    (acc : WheelAcc F) :
    wheelRep pf fuel R acc =
      wheelWalk pf fuel (acc.g.float64 0 * pf.MaxWeight * 2)
        (((acc.g.intn 0 : Nat) : Int) % R)
        { acc with g :=
          { float64 := fun n => acc.g.float64 (n + 1)
            intn := fun k => acc.g.intn (k + 1)
            norm := acc.g.norm } } := by
  unfold wheelRep
  simp only [Rng.Intn, not_le.mpr hR, if_false, bind, Except.bind]
  rfl

end WalkSteps

section RepetitionClaims

/-- C15 (as the code behaves): a completed repetition of the wheel appends one
displaced copy of a particle of the population, or nothing; it never appends
more than one particle. -/
theorem repetition_appends_at_most_one {F : Type} [LinearOrderedField F]
    (pf : ParticleFilter F) (fuel : Nat) (R : Int) (acc acc' : WheelAcc F)
    (h : wheelRep pf fuel R acc = .ok acc') :
    (acc'.newParticleList = acc.newParticleList ∨
      ∃ p ∈ pf.ListParticles, acc'.newParticleList =
        acc.newParticleList ++ [⟨p.X + acc.g.norm 0, p.Y + acc.g.norm 1, 0⟩]) ∧
    acc'.newParticleList.length ≤ acc.newParticleList.length + 1 := by
  have hR := (wheelRep_result pf fuel R acc acc' h).1
  rw [wheelRep_unfold pf fuel R hR acc] at h
  rcases wheelWalk_result pf fuel _ _ _ _ h with rfl | ⟨p, hp, -, rfl⟩
  · exact ⟨Or.inl rfl, by simp⟩
  · rw [accept_newParticleList]
    exact ⟨Or.inr ⟨p, hp, rfl⟩, by simp⟩

/-- C15 (as the code behaves), at a scored state over the rationals. -/
theorem repetition_appends_at_most_one_witness :
    ∃ acc', wheelRep scoredPF 4 2 (startAcc (constRng (1 / 2) 0 0)) = .ok acc' ∧
      acc'.newParticleList.length ≤ 1 := by
  obtain ⟨acc', h, -⟩ := wheelRep_total scoredPF scoredPF_scored 2 (by decide)
    (by simp [scoredPF, samplePF]) 4 (by simp [scoredPF, samplePF])
    (startAcc (constRng (1 / 2) 0 0)) constRng_valid
  exact ⟨acc', h, by
    simpa [startAcc] using (repetition_appends_at_most_one scoredPF 4 2 _ acc' h).2⟩

/-- C15 (the claim fails): no population, `MaxWeight` and random draws make a
single repetition of the wheel append more than one particle. -/
theorem no_multi_accept :
    ¬ ∃ (pf : ParticleFilter ℝ) (fuel : Nat) (R : Int) (acc acc' : WheelAcc ℝ),
      wheelRep pf fuel R acc = .ok acc' ∧
      acc.newParticleList.length + 1 < acc'.newParticleList.length := by
  rintro ⟨pf, fuel, R, acc, acc', h, hlt⟩
  obtain ⟨-, g1, hc⟩ := wheelRep_result pf fuel R acc acc' h
  rcases hc with rfl | ⟨p, -, -, rfl⟩
  · simp at hlt
  · simp [accept] at hlt

/-- C16: when a completed repetition of the wheel appends a particle, its
source is the particle `p` reached after `k` steps of the circular walk from
the drawn start index such that every particle walked past had a weight at
most the `beta` remaining at its turn and `p` has a weight above the `beta`
remaining at its own; that `beta` is positive, so the weight of `p` is; and
the particle appended is `p` displaced by the two draws of noise, with weight
`0`. -/
theorem appended_from_first_exceeding {F : Type} [LinearOrderedField F]
    (pf : ParticleFilter F) (fuel : Nat) (R : Int) (acc acc' : WheelAcc F)
    (h : wheelRep pf fuel R acc = .ok acc')
    (happ : acc'.newParticleList ≠ acc.newParticleList) :
    ∃ (k : Nat) (p : Particle F),
      index pf.ListParticles
        (walkPos pf.NumSamples k (((acc.g.intn 0 : Nat) : Int) % R)) = .ok p ∧
      (∀ t, t < k → ∃ q,
        index pf.ListParticles
          (walkPos pf.NumSamples t (((acc.g.intn 0 : Nat) : Int) % R)) = .ok q ∧
        q.Weight ≤ remainingBeta pf.ListParticles pf.NumSamples t
          (acc.g.float64 0 * pf.MaxWeight * 2) (((acc.g.intn 0 : Nat) : Int) % R)) ∧
      remainingBeta pf.ListParticles pf.NumSamples k
          (acc.g.float64 0 * pf.MaxWeight * 2) (((acc.g.intn 0 : Nat) : Int) % R)
        < p.Weight ∧
      0 < p.Weight ∧
      acc'.newParticleList =
        acc.newParticleList ++ [⟨p.X + acc.g.norm 0, p.Y + acc.g.norm 1, 0⟩] := by
  have hR := (wheelRep_result pf fuel R acc acc' h).1
  rw [wheelRep_unfold pf fuel R hR acc] at h
  obtain ⟨k, p, hk, hpast, hpos, hlt, hacc⟩ := wheelWalk_source pf fuel _ _ _ acc' h happ
  refine ⟨k, p, hk, hpast, hlt, lt_trans hpos hlt, ?_⟩
  rw [hacc, accept_newParticleList]

/-- C16, at a scored state over the rationals: `beta` is `1`, the particle of
weight `1/2` is walked past and the particle `(2, 2)` of weight `1` is accepted. -/
theorem appended_from_first_exceeding_witness :
    wheelRep scoredPF 4 2 (startAcc (constRng (1 / 2) 0 0)) =
      .ok (accept ⟨2, 2, 1⟩ (startAcc (constRng (1 / 2) 0 0))) ∧
    ∃ (k : Nat) (p : Particle ℚ),
      index scoredPF.ListParticles (walkPos scoredPF.NumSamples k 0) = .ok p ∧
      0 < p.Weight ∧
      (accept ⟨2, 2, 1⟩ (startAcc (constRng (1 / 2) 0 0))).newParticleList =
        [⟨p.X + 0, p.Y + 0, 0⟩] := by
  have hN : scoredPF.NumSamples ≠ 0 := by simp [scoredPF, samplePF]
  have hrep : wheelRep scoredPF 4 2 (startAcc (constRng (1 / 2) 0 0)) =
      .ok (accept ⟨2, 2, 1⟩ (startAcc (constRng (1 / 2) 0 0))) := by
    rw [wheelRep_unfold scoredPF 4 2 (by decide)]
    rw [wheelWalk_skip scoredPF 3 _ _ _ ⟨1, 1, 1 / 2⟩ (by rfl)
      (by norm_num [startAcc, constRng, scoredPF, samplePF])
      (by norm_num [startAcc, constRng, scoredPF, samplePF]) hN]
    rw [wheelWalk_accept scoredPF 2 _ _ _ ⟨2, 2, 1⟩ (by rfl)
      (by norm_num [startAcc, constRng, scoredPF, samplePF])
      (by norm_num [startAcc, constRng, scoredPF, samplePF]) hN]
    rfl
  refine ⟨hrep, ?_⟩
  obtain ⟨k, p, hk, -, -, hpos, hl⟩ := appended_from_first_exceeding scoredPF 4 2
    (startAcc (constRng (1 / 2) 0 0)) _ hrep (accept_ne _ _)
  exact ⟨k, p, hk, hpos, hl⟩

end RepetitionClaims

/-! ## Start index, termination, index safety and frame of `ResampleAndFuzz` -/

section StartIndex

/-- C17 (as the code behaves): the start index of a walk is
`rand.Intn(numIntResample)`: it is always in `[0, numIntResample)`, every
index of that range is the start index for some draw, and it is a valid index
of the particle list when the list has at least `numIntResample` particles. -/
theorem startIdx_range {F : Type} [LinearOrderedField F] [FloorRing F]
    (pf : ParticleFilter F) (fuel : Nat) (hR : 0 < numIntResample pf) :
    (∀ acc : WheelAcc F, wheelRep pf fuel (numIntResample pf) acc =
      wheelWalk pf fuel (acc.g.float64 0 * pf.MaxWeight * 2)
        (((acc.g.intn 0 : Nat) : Int) % numIntResample pf)
        { acc with g :=
          { float64 := fun n => acc.g.float64 (n + 1)
            intn := fun k => acc.g.intn (k + 1)
            norm := acc.g.norm } }) ∧
    (∀ raw : Nat, 0 ≤ (raw : Int) % numIntResample pf ∧
      (raw : Int) % numIntResample pf < numIntResample pf) ∧
    (∀ i : Int, 0 ≤ i → i < numIntResample pf →
      ∃ raw : Nat, (raw : Int) % numIntResample pf = i) ∧
    (numIntResample pf ≤ (pf.ListParticles.length : Int) →
      ∀ raw : Nat, ∃ p, index pf.ListParticles ((raw : Int) % numIntResample pf) = .ok p) := by
  have hrange : ∀ raw : Nat, 0 ≤ (raw : Int) % numIntResample pf ∧
      (raw : Int) % numIntResample pf < numIntResample pf :=
    fun raw => ⟨Int.emod_nonneg _ (by omega), Int.emod_lt_of_pos _ hR⟩
  refine ⟨fun acc => wheelRep_unfold pf fuel _ hR acc, hrange, ?_, ?_⟩
  · intro i h0 h1
    refine ⟨i.toNat, ?_⟩
    rw [Int.toNat_of_nonneg h0]
    exact Int.emod_eq_of_lt h0 h1
  · intro hlen raw
    obtain ⟨h0, h1⟩ := hrange raw
    have hlt : ((raw : Int) % numIntResample pf).toNat < pf.ListParticles.length := by omega
    obtain ⟨p, hp, -⟩ := index_natCast pf.ListParticles _ hlt
    rw [Int.toNat_of_nonneg h0] at hp
    exact ⟨p, hp⟩

/-- C17 (as the code behaves), at a state that resamples one of two particles. -/
theorem startIdx_range_witness :
    numIntResample halfPF = 1 ∧
    ∀ raw : Nat, 0 ≤ (raw : Int) % numIntResample halfPF ∧
      (raw : Int) % numIntResample halfPF < numIntResample halfPF := by
  have hR : numIntResample halfPF = 1 := by
    simp [numIntResample, toInt, halfPF, samplePF]
  exact ⟨hR, (startIdx_range halfPF 4 (by rw [hR]; decide)).2.1⟩

/-- C17 (the claim fails): with `NumSamples = 2` and `PercentResample = 0.5`
the resample count is `1`, and no draw makes a walk start at index `1`,
although `1` is an index of the particle list. -/
theorem startIdx_not_whole_list :
    halfPF.NumSamples = 2 ∧ halfPF.ListParticles.length = 2 ∧
    numIntResample halfPF = 1 ∧
    ¬ ∃ (g : Rng ℚ) (r : Int × Rng ℚ),
      g.Intn (numIntResample halfPF) = .ok r ∧ r.1 = 1 := by
  have hR : numIntResample halfPF = 1 := by
    simp [numIntResample, toInt, halfPF, samplePF]
  refine ⟨rfl, rfl, hR, ?_⟩
  rintro ⟨g, r, h, h1⟩
  rw [hR] at h
  simp only [Rng.Intn] at h
  have hle : ¬ ((1 : Int) ≤ 0) := by decide
  simp only [hle, if_false, Except.ok.injEq] at h
  rw [← h] at h1
  simp at h1

end StartIndex

section Termination

/-- C18: in a population of `NumSamples > 0` particles with non-negative
weights whose largest weight is `MaxWeight`, for every `beta` in
`[0, 2 * MaxWeight)` and every start index in `[0, NumSamples)`, the inner loop
completes within `2 * NumSamples` iterations. -/
theorem wheelWalk_terminates {F : Type} [LinearOrderedField F] (pf : ParticleFilter F)
    (hlen : (pf.ListParticles.length : Int) = pf.NumSamples) (hpos : 0 < pf.NumSamples)
    (hw : ∀ p ∈ pf.ListParticles, 0 ≤ p.Weight)
    (hmax : (∃ p ∈ pf.ListParticles, p.Weight = pf.MaxWeight) ∧
      ∀ p ∈ pf.ListParticles, p.Weight ≤ pf.MaxWeight)
    (beta : F) (hb : 0 ≤ beta ∧ beta < 2 * pf.MaxWeight)
    (idx : Int) (hidx : 0 ≤ idx ∧ idx < pf.NumSamples) (acc : WheelAcc F) :
    ∃ acc', wheelWalk pf (2 * pf.NumSamples.toNat) beta idx acc = .ok acc' := by
  have hn : pf.NumSamples = (pf.NumSamples.toNat : Int) := by omega
  have hl : pf.ListParticles.length = pf.NumSamples.toNat := by omega
  obtain ⟨p, hp, hpw⟩ := hmax.1
  obtain ⟨j, hj, hjw⟩ := mem_weightOfIdx pf.ListParticles p hp
  have hi : idx.toNat < pf.NumSamples.toNat := by omega
  have h2 := walkSum_two_laps pf.ListParticles pf.NumSamples.toNat hw idx.toNat j hi
    (by omega)
  rw [hjw, hpw] at h2
  have := wheelWalk_total pf pf.NumSamples.toNat hn hl (2 * pf.NumSamples.toNat) beta
    idx.toNat hi acc (le_trans (le_of_lt hb.2) h2)
  rwa [Int.toNat_of_nonneg hidx.1] at this

/-- C18, at a scored state over the rationals. -/
theorem wheelWalk_terminates_witness :
    ∃ acc', wheelWalk scoredPF (2 * scoredPF.NumSamples.toNat) (3 / 2) 1
      (startAcc (constRng (1 / 2) 0 0)) = .ok acc' :=
  wheelWalk_terminates scoredPF (by simp [scoredPF, samplePF]) (by simp [scoredPF, samplePF])
    scoredPF_scored.nonneg
    ⟨⟨⟨2, 2, 1⟩, by simp [scoredPF, samplePF], by simp [scoredPF, samplePF]⟩, by
      intro p hp
      simp only [scoredPF, samplePF, List.mem_cons, List.mem_singleton, List.not_mem_nil,
        or_false] at hp
      rcases hp with rfl | rfl <;> norm_num [scoredPF, samplePF]⟩
    (3 / 2) (by norm_num [scoredPF, samplePF]) 1 (by simp [scoredPF, samplePF])
    (startAcc (constRng (1 / 2) 0 0))

end Termination

section IndexSafety

variable {F : Type} [LinearOrderedField F]

theorem wheelWalk_no_oob (pf : ParticleFilter F) (n : Nat)
    (hN : pf.NumSamples = (n : Int)) (hlen : pf.ListParticles.length = n)
    (fuel : Nat) (beta : F) (i : Nat) (hi : i < n) (acc : WheelAcc F) :
    wheelWalk pf fuel beta (i : Int) acc ≠ .error .indexOutOfRange := by
  induction fuel generalizing beta i acc with
  | zero =>
    unfold wheelWalk
    split <;> simp
  | succ fuel ih =>
    by_cases hpos : beta > 0
    · obtain ⟨p, hp, -⟩ := index_natCast pf.ListParticles i (by omega)
      have hn0 : pf.NumSamples ≠ 0 := by omega
      unfold wheelWalk
      simp only [hpos, if_true, hp, bind, Except.bind, hn0, if_false]
      rw [hN, tmod_next n i hi]
      exact ih _ _ (nextIdx_lt n i hi) _
    · rw [wheelWalk_stop pf _ beta _ acc hpos]
      simp

theorem wheelRep_no_oob (pf : ParticleFilter F) (fuel : Nat) (R : Int)
    (hlen : (pf.ListParticles.length : Int) = pf.NumSamples) (hR : R ≤ pf.NumSamples)
    (acc : WheelAcc F) : wheelRep pf fuel R acc ≠ .error .indexOutOfRange := by
  by_cases h0 : 0 < R
  · rw [wheelRep_unfold pf fuel R h0 acc]
    have hk0 : 0 ≤ ((acc.g.intn 0 : Nat) : Int) % R := Int.emod_nonneg _ (by omega)
    have hk1 : ((acc.g.intn 0 : Nat) : Int) % R < R := Int.emod_lt_of_pos _ h0
    have := wheelWalk_no_oob pf pf.NumSamples.toNat (by omega) (by omega) fuel
      (acc.g.float64 0 * pf.MaxWeight * 2) (((acc.g.intn 0 : Nat) : Int) % R).toNat
      (by omega)
      { acc with g :=
        { float64 := fun n => acc.g.float64 (n + 1)
          intn := fun k => acc.g.intn (k + 1)
          norm := acc.g.norm } }
    rwa [Int.toNat_of_nonneg hk0] at this
  · unfold wheelRep
    simp [Rng.Intn, not_lt.mp h0, bind, Except.bind]

theorem wheel_no_oob (pf : ParticleFilter F) (fuel : Nat) (R : Int)
    (hlen : (pf.ListParticles.length : Int) = pf.NumSamples) (hR : R ≤ pf.NumSamples)
    (n : Nat) (acc : WheelAcc F) : wheel pf fuel R n acc ≠ .error .indexOutOfRange := by
  induction n generalizing acc with
  | zero => simp [wheel]
  | succ n ih =>
    simp only [wheel, bind, Except.bind]
    cases hr : wheelRep pf fuel R acc with
    | error e =>
      intro h
      simp only [Except.error.injEq] at h
      subst h
      exact wheelRep_no_oob pf fuel R hlen hR acc hr
    | ok acc1 => exact ih acc1

theorem numIntResample_le_of_frac [FloorRing F] (pf : ParticleFilter F)
    (hN : 0 ≤ pf.NumSamples) (hfrac : 0 < pf.PercentResample ∧ pf.PercentResample ≤ 1) :
    numIntResample pf ≤ pf.NumSamples := by
  have hNF : (0 : F) ≤ (pf.NumSamples : F) := by exact_mod_cast hN
  have h0 : 0 ≤ (pf.NumSamples : F) * pf.PercentResample :=
    mul_nonneg hNF (le_of_lt hfrac.1)
  have h1 : (pf.NumSamples : F) * pf.PercentResample ≤ (pf.NumSamples : F) := by
    have := mul_le_mul_of_nonneg_left hfrac.2 hNF
    simpa using this
  unfold numIntResample toInt
  simp only [h0, if_true]
  have h2 : ((⌊(pf.NumSamples : F) * pf.PercentResample⌋ : Int) : F) ≤ (pf.NumSamples : F) :=
    le_trans (Int.floor_le _) h1
  exact_mod_cast h2

theorem ResampleAndFuzz_no_oob [FloorRing F] (pf : ParticleFilter F)
    (hlen : (pf.ListParticles.length : Int) = pf.NumSamples)
    (hfrac : 0 < pf.PercentResample ∧ pf.PercentResample ≤ 1) (fuel : Nat) (g : Rng F) :
    ResampleAndFuzz fuel pf g ≠ .error .indexOutOfRange := by
  have hR := numIntResample_le_of_frac pf (by omega) hfrac
  have hnum : numIntResample { pf with iteration := pf.iteration + 1 } = numIntResample pf := rfl
  unfold ResampleAndFuzz
  simp only [hnum, bind, Except.bind]
  cases hw : wheel { pf with iteration := pf.iteration + 1 } fuel (numIntResample pf)
      (numIntResample pf).toNat ⟨g, [], 0.0, 0.0⟩ with
  | error e =>
    intro h
    simp only [Except.error.injEq] at h
    subst h
    exact wheel_no_oob { pf with iteration := pf.iteration + 1 } fuel _ hlen hR _ _ hw
  | ok acc => simp [pure, Except.pure]

theorem walkPos_range (N : Int) (hN : 0 < N) (t : Nat) (idx : Int)
    (h : 0 ≤ idx ∧ idx < N) : 0 ≤ walkPos N t idx ∧ walkPos N t idx < N := by
  induction t generalizing idx with
  | zero => simpa [walkPos] using h
  | succ t ih =>
    simp only [walkPos]
    apply ih
    rw [Int.tmod_eq_emod (by omega) (by omega)]
    exact ⟨Int.emod_nonneg _ (by omega), Int.emod_lt_of_pos _ hN⟩

theorem wheel_first_error (pf : ParticleFilter F) (fuel : Nat) (R : Int) (n : Nat)
    (acc : WheelAcc F) (e : Fault) (h : wheelRep pf fuel R acc = .error e) :
    wheel pf fuel R (n + 1) acc = .error e := by
  simp only [wheel, bind, Except.bind, h]

theorem ResampleAndFuzz_wheel_error [FloorRing F] (fuel : Nat) (pf : ParticleFilter F)
    (g : Rng F) (e : Fault)
    (h : wheel { pf with iteration := pf.iteration + 1 } fuel (numIntResample pf)
      (numIntResample pf).toNat ⟨g, [], 0, 0⟩ = .error e) :
    ResampleAndFuzz fuel pf g = .error e := by
  have hz : (0.0 : F) = 0 := by norm_num
  have hnum : numIntResample { pf with iteration := pf.iteration + 1 } = numIntResample pf := rfl
  unfold ResampleAndFuzz
  simp only [hnum, hz, bind, Except.bind, h]

/-- On a population of one particle with `NumSamples = 2`, a walk that starts
at index `1` reads past the end of the list. -/
theorem shortPF_out_of_range :
    ResampleAndFuzz 4 shortPF (constRng (1 / 2) 1 0) = .error .indexOutOfRange := by
  have hnum : numIntResample shortPF = 2 := by
    simp [numIntResample, toInt, shortPF, samplePF]
  apply ResampleAndFuzz_wheel_error
  rw [hnum]
  have h2 : (2 : Int).toNat = 1 + 1 := by decide
  rw [h2]
  apply wheel_first_error
  rw [wheelRep_unfold _ 4 2 (by decide)]
  apply wheelWalk_oob
  · rfl
  · norm_num [constRng, shortPF, samplePF]

end IndexSafety

section SafetyClaims

/-- C19: when the population has exactly `NumSamples` particles and
`0 < PercentResample <= 1`, `ResampleAndFuzz` never indexes the particle list
out of range, whatever the fuel and the draws: the start index, drawn below the
resample count, and every position the walk reaches from it are indices of
the list; and there is a state with a population shorter than `NumSamples`,
with valid draws, on which it does index out of range. -/
theorem resample_index_safety {F : Type} [LinearOrderedField F] [FloorRing F]
    (pf : ParticleFilter F) (hlen : (pf.ListParticles.length : Int) = pf.NumSamples)
    (hfrac : 0 < pf.PercentResample ∧ pf.PercentResample ≤ 1) :
    (∀ (fuel : Nat) (g : Rng F), ResampleAndFuzz fuel pf g ≠ .error .indexOutOfRange) ∧
    (∀ (raw t : Nat), 0 < numIntResample pf →
      0 ≤ walkPos pf.NumSamples t ((raw : Int) % numIntResample pf) ∧
      walkPos pf.NumSamples t ((raw : Int) % numIntResample pf)
        < (pf.ListParticles.length : Int)) ∧
    (∃ (qf : ParticleFilter ℚ) (g : Rng ℚ),
      (qf.ListParticles.length : Int) < qf.NumSamples ∧
      (0 < qf.PercentResample ∧ qf.PercentResample ≤ 1) ∧ g.Valid ∧
      ResampleAndFuzz 4 qf g = .error .indexOutOfRange) := by
  have hR := numIntResample_le_of_frac pf (by omega) hfrac
  refine ⟨fun fuel g => ResampleAndFuzz_no_oob pf hlen hfrac fuel g, ?_, ?_⟩
  · intro raw t h0
    rw [hlen]
    apply walkPos_range pf.NumSamples (by omega)
    have h1 : 0 ≤ (raw : Int) % numIntResample pf := Int.emod_nonneg _ (by omega)
    have h2 : (raw : Int) % numIntResample pf < numIntResample pf :=
      Int.emod_lt_of_pos _ h0
    exact ⟨h1, by omega⟩
  · exact ⟨shortPF, constRng (1 / 2) 1 0, by simp [shortPF, samplePF],
      by norm_num [shortPF, samplePF], fun n => by norm_num [constRng],
      shortPF_out_of_range⟩

/-- C19, at a scored state over the rationals. -/
theorem resample_index_safety_witness :
    ResampleAndFuzz 4 scoredPF (constRng (1 / 2) 0 0) ≠ .error .indexOutOfRange ∧
    ∃ (qf : ParticleFilter ℚ) (g : Rng ℚ),
      (qf.ListParticles.length : Int) < qf.NumSamples ∧
      (0 < qf.PercentResample ∧ qf.PercentResample ≤ 1) ∧ g.Valid ∧
      ResampleAndFuzz 4 qf g = .error .indexOutOfRange :=
  ⟨(resample_index_safety scoredPF (by simp [scoredPF, samplePF])
      (by norm_num [scoredPF, samplePF])).1 4 (constRng (1 / 2) 0 0),
    (resample_index_safety scoredPF (by simp [scoredPF, samplePF])
      (by norm_num [scoredPF, samplePF])).2.2⟩

end SafetyClaims

section ResampleFrame

variable {F : Type} [LinearOrderedField F]

theorem wheel_weights_zero (pf : ParticleFilter F) (fuel : Nat) (R : Int) (n : Nat)
    (acc acc' : WheelAcc F) (h : wheel pf fuel R n acc = .ok acc')
    (h0 : ∀ p ∈ acc.newParticleList, p.Weight = 0) :
    ∀ p ∈ acc'.newParticleList, p.Weight = 0 := by
  induction n generalizing acc with
  | zero =>
    simp only [wheel, Except.ok.injEq] at h
    subst h; exact h0
  | succ n ih =>
    simp only [wheel, bind, Except.bind] at h
    cases hr : wheelRep pf fuel R acc with
    | error e => rw [hr] at h; simp at h
    | ok acc1 =>
      rw [hr] at h
      apply ih acc1 h
      obtain ⟨-, g1, hc⟩ := wheelRep_result pf fuel R acc acc1 hr
      rcases hc with rfl | ⟨q, -, -, rfl⟩
      · exact h0
      · intro p hp
        rw [accept_newParticleList] at hp
        rcases List.mem_append.mp hp with hp | hp
        · exact h0 p hp
        · simp only [List.mem_singleton] at hp
          rw [hp]

theorem appendFresh_weights_zero (pf : ParticleFilter F) (n : Nat) (g : Rng F) :
    ∀ p ∈ (appendFresh pf n [] g).1, p.Weight = 0 := by
  induction n generalizing g with
  | zero => intro p hp; simp [appendFresh] at hp
  | succ n ih =>
    intro p hp
    simp only [appendFresh, List.nil_append] at hp
    rw [(appendFresh_fst pf n [(createParticle pf g).1] (createParticle pf g).2).1] at hp
    rcases List.mem_append.mp hp with h | h
    · simp only [List.mem_singleton] at h
      rw [h]
      rfl
    · exact ih _ p h

/-- The fields a completed `ResampleAndFuzz` leaves as they were. -/
theorem ResampleAndFuzz_frame [FloorRing F] (fuel : Nat) (pf pf' : ParticleFilter F)
    (g g' : Rng F) (h : ResampleAndFuzz fuel pf g = .ok (pf', g')) :
    pf'.Sigma = pf.Sigma ∧ pf'.PercentResample = pf.PercentResample ∧
    pf'.XLimit = pf.XLimit ∧ pf'.YLimit = pf.YLimit ∧ pf'.Anchors = pf.Anchors ∧
    pf'.printIter = pf.printIter := by
  unfold ResampleAndFuzz at h
  simp only [bind, Except.bind] at h
  cases hw : wheel { pf with iteration := pf.iteration + 1 } fuel
      (numIntResample { pf with iteration := pf.iteration + 1 })
      (numIntResample { pf with iteration := pf.iteration + 1 }).toNat
      ⟨g, [], 0.0, 0.0⟩ with
  | error e => rw [hw] at h; simp at h
  | ok acc =>
    rw [hw] at h
    simp only [pure, Except.pure, Except.ok.injEq, Prod.mk.injEq] at h
    obtain ⟨rfl, -⟩ := h
    exact ⟨rfl, rfl, rfl, rfl, rfl, rfl⟩

end ResampleFrame

section FrameOfResample

/-- C20: a completed `ResampleAndFuzz` adds one to the iteration count, leaves
`MaxWeight`, `Sigma`, `NumSamples`, `PercentResample`, `XLimit`, `YLimit` and
`Anchors` as they were, and gives every particle of the new population
`Weight = 0`; so a positive `MaxWeight` exceeds every weight of the new
population. -/
theorem resample_keeps_maxWeight {F : Type} [LinearOrderedField F] [FloorRing F]
    (fuel : Nat) (pf pf' : ParticleFilter F) (g g' : Rng F)
    (h : ResampleAndFuzz fuel pf g = .ok (pf', g')) :
    pf'.iteration = pf.iteration + 1 ∧ pf'.MaxWeight = pf.MaxWeight ∧
    pf'.Sigma = pf.Sigma ∧ pf'.NumSamples = pf.NumSamples ∧
    pf'.PercentResample = pf.PercentResample ∧ pf'.XLimit = pf.XLimit ∧
    pf'.YLimit = pf.YLimit ∧ pf'.Anchors = pf.Anchors ∧
    (∀ p ∈ pf'.ListParticles, p.Weight = 0) ∧
    (0 < pf.MaxWeight → ∀ p ∈ pf'.ListParticles, p.Weight < pf'.MaxWeight) := by
  obtain ⟨acc, hw, -, -, hl, hmw, hit, hN⟩ := ResampleAndFuzz_result fuel pf pf' g g' h
  obtain ⟨hs, hp, hx, hy, ha, -⟩ := ResampleAndFuzz_frame fuel pf pf' g g' h
  have hzero : ∀ p ∈ pf'.ListParticles, p.Weight = 0 := by
    intro p hp
    rw [hl] at hp
    rcases List.mem_append.mp hp with hp | hp
    · exact wheel_weights_zero _ fuel _ _ _ acc hw (by simp) p hp
    · exact appendFresh_weights_zero _ _ _ p hp
  refine ⟨hit, hmw, hs, hN, hp, hx, hy, ha, hzero, ?_⟩
  intro hpos p hp
  rw [hzero p hp, hmw]
  exact hpos

/-- C20, at a scored state over the rationals with `MaxWeight = 1`. -/
theorem resample_keeps_maxWeight_witness :
    ∃ r, ResampleAndFuzz 4 scoredPF (constRng (1 / 2) 0 0) = .ok r ∧
      r.1.iteration = 1 ∧ r.1.MaxWeight = 1 ∧
      (∀ p ∈ r.1.ListParticles, p.Weight = 0) := by
  obtain ⟨r, hr⟩ := ResampleAndFuzz_total scoredPF scoredPF_scored (constRng (1 / 2) 0 0)
    constRng_valid 4 (by simp [scoredPF, samplePF])
  obtain ⟨hit, hmw, -, -, -, -, -, -, hz, -⟩ :=
    resample_keeps_maxWeight 4 scoredPF r.1 (constRng (1 / 2) 0 0) r.2 hr
  exact ⟨r, hr, by simpa [scoredPF, samplePF] using hit,
    by simpa [scoredPF, samplePF] using hmw, hz⟩

end FrameOfResample

end UwbPf
